import Mathlib

/-!
Verification of the EDI claim-statistics comparison pipeline
(`streamlit_claim_compare_app_v2.py`, embedded in `src/main.py`).

The pipeline's core functions are shallowly embedded here:

* `_parse_month_from_name` / `_detect_kind` — filename classification
  (the regex `(?:^|[^0-9])(\d{1,2})\s*월` is embedded as an explicit
  leftmost-search with greedy backtracking over `List Char`);
* `normalize_columns` — header normalization over the synonym table
  `RENAME_CANDIDATES`;
* `_coerce_numeric` — total monetary-cell coercion;
* `_prepare_df` — monetary-column fill / coercion / row-wise aggregate;
* `_group_sum` — grouped totals with the `"미지정"` sentinel fallback;
* `_compare` — month-over-month comparison (outer join, delta, marker);
* `fmt` — the delta marker formatting (`f"{int(abs(d)):,}"`);
* the per-file upload loop with its per-file exception isolation.

Modelling conventions: strings are `List Char`; `\d` / `[^0-9]` are
modelled as the ASCII digits `0`–`9`; `str.lower()` is modelled with
`Char.toLower` (ASCII case folding); table cells are text or exact
rationals (`Rat`), so numeric values carry no floating-point rounding;
pandas DataFrames are ordered association lists from column name to a
column of cells.
-/

namespace Cheongu

abbrev Str := List Char

/-! ### Basic character/string utilities -/

/-- ASCII decimal digit, the `[0-9]` (and, for this model, `\d`) class
of the source regex. -/
def isDigitCh (c : Char) : Bool := 48 ≤ c.toNat && c.toNat ≤ 57

/-- Numeric value of an ASCII digit. -/
def digitVal (c : Char) : Nat := c.toNat - 48

/-- Whitespace as matched by the regex class `\s` (ASCII part). -/
def isSpaceCh (c : Char) : Bool :=
  c = ' ' || c = '\t' || c = '\n' || c = '\r' || c = '\x0b' || c = '\x0c'

/-- `str.strip()`: remove leading and trailing whitespace. -/
def stripStr (s : Str) : Str :=
  ((s.dropWhile isSpaceCh).reverse.dropWhile isSpaceCh).reverse

/-! ### Month extraction (`MONTH_RE` and `_parse_month_from_name`)

`MONTH_RE = re.compile(r"(?:^|[^0-9])(\d{1,2})\s*월", re.I)` and
`MONTH_RE.search(name)`: leftmost match, alternation tried in order
(`^` before `[^0-9]`), `\d{1,2}` greedy (two digits preferred). -/

/-- The regex tail `\s*월`: skip whitespace, then require the glyph `월`.
(`월` is not itself whitespace, so greediness of `\s*` is irrelevant.) -/
def wsWol : Str → Bool
  | [] => false
  | c :: rest => c = '월' || (isSpaceCh c && wsWol rest)

/-- The regex core `(\d{1,2})\s*월` matched at the head of `l`, with the
greedy preference of `\d{1,2}` (two digits tried before one), returning
the numeric value of the captured group. -/
def coreMatch : Str → Option Nat
  | [] => none
  | c1 :: rest =>
    if isDigitCh c1 then
      match rest with
      | [] => none
      | c2 :: rest2 =>
        if isDigitCh c2 && wsWol rest2 then some (10 * digitVal c1 + digitVal c2)
        else if wsWol rest then some (digitVal c1)
        else none
    else none

/-- `re.search` of `MONTH_RE`: at each start position try the `^`
alternative (start only), then the `[^0-9]` alternative (consuming one
non-digit), then advance one position. -/
def searchAux : Bool → Str → Option Nat
  | _, [] => none
  | atStart, c :: rest =>
    match (if atStart then coreMatch (c :: rest) else none) with
    | some v => some v
    | none =>
      match (if !isDigitCh c then coreMatch rest else none) with
      | some v => some v
      | none => searchAux false rest

/-- `MONTH_RE.search(name)`, returning `int(m.group(1))`. -/
def monthSearch (s : Str) : Option Nat := searchAux true s

/-- `_parse_month_from_name` from the source: regex search, then accept
only `1 <= mm <= 12`. -/
def _parse_month_from_name (name : Str) : Option Nat :=
  match monthSearch name with
  | none => none
  | some mm => if 1 ≤ mm ∧ mm ≤ 12 then some mm else none

/-! Spec-side month-token definition (for the refinement in claim C3):
"find the first substring matching one or two digits, optional
whitespace, immediately followed by the month-unit glyph, where the
digit run is not itself preceded by another digit; accept only integer
values 1–12 inclusive". -/

/-- Spec-side: a run of one or two digits at the head of `l`, followed by
optional whitespace and `월` (stated without the regex engine's greedy
preference: the one-digit reading is tried first here). -/
def coreSpec : Str → Option Nat
  | [] => none
  | c1 :: rest =>
    if isDigitCh c1 then
      if wsWol rest then some (digitVal c1)
      else
        match rest with
        | [] => none
        | c2 :: rest2 =>
          if isDigitCh c2 && wsWol rest2 then some (10 * digitVal c1 + digitVal c2)
          else none
    else none

/-- Spec-side: scan positions left to right, remembering the preceding
character; accept the first position whose digit run is not preceded by
a digit and is followed by optional whitespace and `월`. -/
def specSearchAux : Option Char → Str → Option Nat
  | _, [] => none
  | prev, c :: rest =>
    match (if prev.all (fun c => !isDigitCh c) then coreSpec (c :: rest) else none) with
    | some v => some v
    | none => specSearchAux (some c) rest

/-- Spec-side month token: first qualifying digit run, filtered to 1–12. -/
def specMonthToken (s : Str) : Option Nat :=
  match specSearchAux none s with
  | none => none
  | some mm => if 1 ≤ mm ∧ mm ≤ 12 then some mm else none

/-! ### Kind detection and classification -/

inductive Kind
  | doctor
  | claim
deriving DecidableEq, Repr

/-- `str.lower()` (ASCII case folding; Korean characters are unaffected). -/
def lowerStr (s : Str) : Str := s.map Char.toLower

/-- Python's substring test `pat in s`. -/
def containsSub (pat s : Str) : Bool := decide (List.IsInfix pat s)

/-- The doctor-category filename marker `"의사별"`. -/
def docMark : Str := "의사별".toList

/-- The claim-category filename marker `"청구별"`. -/
def claimMark1 : Str := "청구별".toList

/-- The claim-category filename marker `"청구"`. -/
def claimMark2 : Str := "청구".toList

/-- The Latin claim-category filename marker `"claim"`. -/
def claimMarkEn : Str := "claim".toList

/-- `_detect_kind` from the source: `"의사별" in name` classifies as
doctor; else `"청구별" in name or "청구" in name or "claim" in nm`
(with `nm = name.lower()`) classifies as claim. -/
def _detect_kind (name : Str) : Option Kind :=
  if containsSub docMark name then some Kind.doctor
  else if containsSub claimMark1 name || containsSub claimMark2 name
      || containsSub claimMarkEn (lowerStr name) then some Kind.claim
  else none

/-- The acceptance step of the upload loop: a file enters a bucket only
when both the kind and the month are recognized
(`if not kind or not month: continue`). -/
def classify (name : Str) : Option (Kind × Nat) :=
  match _detect_kind name, _parse_month_from_name name with
  | some k, some m => some (k, m)
  | _, _ => none

/-! ### Equivalence of the regex search with the spec-side month token -/

lemma isSpaceCh_toNat {c : Char} (h : isSpaceCh c = true) : c.toNat < 48 := by
  simp only [isSpaceCh, Bool.or_eq_true, decide_eq_true_eq] at h
  rcases h with ((((h | h) | h) | h) | h) | h <;> subst h <;> decide

lemma wsWol_cons_digit {c : Char} (rest : Str) (h : isDigitCh c = true) :
    wsWol (c :: rest) = false := by
  simp only [isDigitCh, Bool.and_eq_true, decide_eq_true_eq] at h
  simp only [wsWol, Bool.or_eq_false_iff, Bool.and_eq_false_iff, decide_eq_false_iff_not]
  refine ⟨fun hc => ?_, Or.inl ?_⟩
  · subst hc; exact absurd h (by decide)
  · rcases hs : isSpaceCh c with _ | _
    · rfl
    · exact absurd (isSpaceCh_toNat hs) (by omega)

lemma core_eq (l : Str) : coreMatch l = coreSpec l := by
  rcases l with _ | ⟨c1, _ | ⟨c2, rest2⟩⟩
  · rfl
  · by_cases h1 : isDigitCh c1 = true <;> simp [coreMatch, coreSpec, h1, wsWol]
  · by_cases h1 : isDigitCh c1 = true
    · by_cases h2 : isDigitCh c2 = true
      · have hws := wsWol_cons_digit rest2 h2
        by_cases h3 : wsWol rest2 = true <;>
          simp [coreMatch, coreSpec, h1, h2, h3, hws]
      · have h2' : isDigitCh c2 = false := by simpa using h2
        by_cases h3 : wsWol (c2 :: rest2) = true <;>
          simp [coreMatch, coreSpec, h1, h2', h3]
    · simp [coreMatch, coreSpec, h1]

lemma searchAux_false_cons (c : Char) (l : Str) :
    searchAux false (c :: l) =
      match (if !isDigitCh c then coreMatch l else none) with
      | some v => some v
      | none => searchAux false l := rfl

lemma searchAux_true_cons (c : Char) (l : Str) :
    searchAux true (c :: l) =
      match coreMatch (c :: l) with
      | some v => some v
      | none =>
        match (if !isDigitCh c then coreMatch l else none) with
        | some v => some v
        | none => searchAux false l := rfl

lemma specSearchAux_some_cons (c r : Char) (l : Str) :
    specSearchAux (some c) (r :: l) =
      match (if !isDigitCh c then coreSpec (r :: l) else none) with
      | some v => some v
      | none => specSearchAux (some r) l := rfl

lemma specSearchAux_none_cons (c : Char) (l : Str) :
    specSearchAux none (c :: l) =
      match coreSpec (c :: l) with
      | some v => some v
      | none => specSearchAux (some c) l := rfl

lemma searchAux_false_eq : ∀ (rest : Str) (c : Char),
    searchAux false (c :: rest) = specSearchAux (some c) rest := by
  intro rest
  induction rest with
  | nil =>
    intro c
    rcases hb : !isDigitCh c with _ | _ <;>
      simp [searchAux, specSearchAux, coreMatch, hb]
  | cons r rest' ih =>
    intro c
    rw [searchAux_false_cons, specSearchAux_some_cons, core_eq, ih r]

lemma monthSearch_eq (s : Str) : monthSearch s = specSearchAux none s := by
  rcases s with _ | ⟨c, rest⟩
  · rfl
  · show searchAux true (c :: rest) = specSearchAux none (c :: rest)
    rw [searchAux_true_cons, specSearchAux_none_cons, core_eq, ← searchAux_false_cons,
      searchAux_false_eq rest c]

lemma parse_month_eq (s : Str) : _parse_month_from_name s = specMonthToken s := by
  simp [_parse_month_from_name, specMonthToken, monthSearch_eq]

/-- **C3.** For every filename, the classifier returns `(doctor, m)` iff
the name contains `"의사별"` and has month token `m` (first one-or-two
digit run not preceded by a digit, followed by optional whitespace and
`월`, with `1 ≤ m ≤ 12`); returns `(claim, m)` iff it contains a claim
marker (`"청구"`, `"청구별"`, or case-insensitive `"claim"`) but no
doctor marker, together with such a month token; and otherwise returns
no match (in particular when the month value is outside 1–12). -/
theorem C3_filename_classifier (name : Str) :
    (∀ m, classify name = some (Kind.doctor, m) ↔
        (containsSub docMark name = true ∧ specMonthToken name = some m)) ∧
    (∀ m, classify name = some (Kind.claim, m) ↔
        ((containsSub claimMark1 name = true ∨ containsSub claimMark2 name = true ∨
          containsSub claimMarkEn (lowerStr name) = true) ∧
         containsSub docMark name = false ∧ specMonthToken name = some m)) ∧
    (classify name = none ↔
        (specMonthToken name = none ∨
         (containsSub docMark name = false ∧ containsSub claimMark1 name = false ∧
          containsSub claimMark2 name = false ∧
          containsSub claimMarkEn (lowerStr name) = false))) := by
  have hp := parse_month_eq name
  unfold classify _detect_kind
  rw [hp]
  by_cases h1 : containsSub docMark name = true
  · rw [if_pos h1]
    cases hm : specMonthToken name <;> simp [h1, hm]
  · have h1' : containsSub docMark name = false := by simpa using h1
    rw [if_neg h1]
    by_cases h2 : (containsSub claimMark1 name || containsSub claimMark2 name
        || containsSub claimMarkEn (lowerStr name)) = true
    · rw [if_pos h2]
      have hd : containsSub claimMark1 name = true ∨ containsSub claimMark2 name = true ∨
          containsSub claimMarkEn (lowerStr name) = true := by
        simp only [Bool.or_eq_true] at h2; tauto
      cases hm : specMonthToken name with
      | none => simp [h1', hm]
      | some v =>
        have hne : ¬ (containsSub claimMark1 name = false ∧
            containsSub claimMark2 name = false ∧
            containsSub claimMarkEn (lowerStr name) = false) := by
          rcases hd with h | h | h <;> simp [h]
        simp [h1', hm, hd, hne]
    · rw [if_neg h2]
      simp only [Bool.or_eq_true, not_or, Bool.not_eq_true] at h2
      cases hm : specMonthToken name <;> simp [h1', h2.1.1, h2.1.2, h2.2, hm]

/-! ### Monetary cell coercion (`_coerce_numeric`) -/

/-- `.str.replace(",", "", regex=False)`: remove every comma. -/
def stripCommas (s : Str) : Str := s.filter (fun c => c ≠ ',')

/-- Value of an ASCII digit string, most significant digit first. -/
def decValue (s : Str) : Nat := s.foldl (fun a c => 10 * a + digitVal c) 0

/-- Modelled from the spec: the numeric parser inside `pd.to_numeric`
(a pandas internal, not part of this repository's source): "parse as a
number; any cell that fails to parse (empty, non-numeric, symbolic)"
yields no value.  Modelled as an optionally signed decimal literal with
optional fractional part, surrounded by optional whitespace; any other
text fails to parse. -/
def parseNumber? (s0 : Str) : Option Rat :=
  let s1 := stripStr s0
  let sgn : Rat := match s1 with
    | '-' :: _ => -1
    | _ => 1
  let s : Str := match s1 with
    | '-' :: r => r
    | '+' :: r => r
    | _ => s1
  let intPart := s.takeWhile isDigitCh
  let rest := s.dropWhile isDigitCh
  match rest with
  | [] => if intPart.isEmpty then none else some (sgn * decValue intPart)
  | '.' :: frac =>
    if frac.all isDigitCh ∧ (intPart ≠ [] ∨ frac ≠ []) then
      some (sgn * ((decValue intPart : Rat) + decValue frac / (10 : Rat) ^ frac.length))
    else none
  | _ => none

/-- `_coerce_numeric` from the source, applied to one cell:
`pd.to_numeric(s.astype(str).str.replace(",", "", regex=False),
errors="coerce").fillna(0)` — strip commas, parse, substitute 0 for any
cell that fails to parse. -/
def _coerce_numeric (cell : Str) : Rat :=
  match parseNumber? (stripCommas cell) with
  | some q => q
  | none => 0

/-- **C4.** Monetary cell coercion is a total function: every input cell
text is comma-stripped and parsed, every cell that fails to parse
becomes 0, so the result is always a (finite, exact) number or 0; in
particular `"1,234,567"` coerces to the number 1234567. -/
theorem C4_coercion_total :
    (∀ cell : Str,
      (∃ q, parseNumber? (stripCommas cell) = some q ∧ _coerce_numeric cell = q) ∨
      _coerce_numeric cell = 0) ∧
    _coerce_numeric "1,234,567".toList = (1234567 : Rat) := by
  constructor
  · intro cell
    cases h : parseNumber? (stripCommas cell) with
    | some q => exact Or.inl ⟨q, rfl, by simp [_coerce_numeric, h]⟩
    | none => exact Or.inr (by simp [_coerce_numeric, h])
  · simp +decide [_coerce_numeric, parseNumber?, stripCommas, stripStr, decValue, digitVal]

/-! ### Tables (pandas DataFrames)

A DataFrame is modelled as an ordered association list from column name
to a column of cells.  Cells read from a workbook are text
(`dtype=str`); numeric columns produced by the pipeline hold exact
rationals. -/

inductive Cell
  | txt : Str → Cell
  | num : Rat → Cell
deriving DecidableEq, Repr

structure Table where
  cols : List (Str × List Cell)
deriving DecidableEq, Repr

def colNames (t : Table) : List Str := t.cols.map Prod.fst

/-- `df[name]` (first matching column; the pipeline only handles tables
with distinct column names). -/
def lookupCol (t : Table) (name : Str) : Option (List Cell) :=
  (t.cols.find? (fun p => decide (p.1 = name))).map Prod.snd

/-- Number of rows (pandas keeps this uniform across columns). -/
def nRows (t : Table) : Nat :=
  match t.cols with
  | [] => 0
  | p :: _ => p.2.length

def setCols : List (Str × List Cell) → Str → List Cell → List (Str × List Cell)
  | [], n, v => [(n, v)]
  | p :: rest, n, v => if p.1 = n then (n, v) :: rest else p :: setCols rest n v

/-- `df[name] = v`: replace the column if present, else append it. -/
def setCol (t : Table) (name : Str) (v : List Cell) : Table :=
  ⟨setCols t.cols name v⟩

/-- Well-formed table: distinct column names, uniform column length. -/
def wf (t : Table) : Prop :=
  (colNames t).Nodup ∧ ∀ p ∈ t.cols, p.2.length = nRows t

/-! ### Column normalization (`normalize_columns`) -/

/-- `df.columns = [str(c).strip() for c in df.columns]`. -/
def stripTable (t : Table) : Table :=
  ⟨t.cols.map (fun p => (stripStr p.1, p.2))⟩

def sl : String → Str := String.toList

/-- The synonym table `RENAME_CANDIDATES` from the source: canonical
name and its ordered list of accepted alias spellings. -/
def RENAME_CANDIDATES : List (Str × List Str) := [
  (sl "보험유형", ["보험유형", "보험 구분", "보험구분", "보험-구분", "보험_구분", "보험종류"].map sl),
  (sl "입원/외래", ["입원/외래", "입/외", "입원외래", "입원_외래", "입원 · 외래", "입원-외래"].map sl),
  (sl "청구차수", ["청구차수", "청구 차수", "청구_차수", "청구-차수"].map sl),
  (sl "본인부담상한초과", ["본인부담상한초과", "본인부담 상한초과", "본인부담-상한초과"].map sl),
  (sl "청구액", ["청구액", "총청구액", "청구 금액", "청구-금액"].map sl),
  (sl "지원금", ["지원금", "지원 금액"].map sl),
  (sl "장애인의료비", ["장애인의료비", "장애인 의료비"].map sl),
  (sl "보훈청구액", ["보훈청구액", "보훈 청구액"].map sl),
  (sl "보훈감면액", ["보훈감면액", "보훈 감면액"].map sl),
  (sl "100/100미만보훈청구", ["100/100미만보훈청구", "100/100 미만 보훈청구", "100/100미만 보훈청구"].map sl)]

/-- The canonical target names (the keys of `RENAME_CANDIDATES`). -/
def CANON : List Str := RENAME_CANDIDATES.map Prod.fst

/-- Python dict assignment `newcols[al] = target`. -/
def upsert (m : List (Str × Str)) (k v : Str) : List (Str × Str) :=
  (m.filter (fun e => decide (e.1 ≠ k))) ++ [(k, v)]

/-- The `newcols` loop of `normalize_columns`: for each canonical
target in synonym-table order, record the first alias that is present
while the target is absent. -/
def buildFold : List (Str × List Str) → List Str → List (Str × Str) → List (Str × Str)
  | [], _, m => m
  | p :: rest, cols, m =>
    match p.2.find? (fun al => decide (al ∈ cols) && decide (p.1 ∉ cols)) with
    | some al => buildFold rest cols (upsert m al p.1)
    | none => buildFold rest cols m

def buildRenames (cands : List (Str × List Str)) (cols : List Str) : List (Str × Str) :=
  buildFold cands cols []

def lookupRen (m : List (Str × Str)) (k : Str) : Option Str :=
  (m.find? (fun e => decide (e.1 = k))).map Prod.snd

/-- `df.rename(columns=newcols)`. -/
def renameTable (t : Table) (m : List (Str × Str)) : Table :=
  ⟨t.cols.map (fun p => ((lookupRen m p.1).getD p.1, p.2))⟩

/-- `normalize_columns` from the source: strip headers, build the
alias→canonical mapping (an alias is renamed only when its canonical
target is not already a header), apply it; the mapping itself is the
recorded rename log. -/
def normalize_columns (t : Table) : Table × List (Str × Str) :=
  let t1 := stripTable t
  let m := buildRenames RENAME_CANDIDATES (colNames t1)
  (renameTable t1 m, m)

/-! ### Row preparation (`_prepare_df`) -/

/-- `SUM_COLS` from the source: the canonical monetary columns. -/
def SUM_COLS : List Str :=
  ["본인부담상한초과", "청구액", "지원금", "장애인의료비", "보훈청구액", "보훈감면액",
   "100/100미만보훈청구"].map sl

/-- The derived per-row aggregate column `"__합산청구액__"`. -/
def AGG : Str := sl "__합산청구액__"

/-- Numeric view of a cell, as `_coerce_numeric` produces it: text is
comma-stripped and parsed (0 on failure); numeric cells re-parse to
their own value. -/
def cellToRat : Cell → Rat
  | .num q => q
  | .txt s => _coerce_numeric s

/-- Row-wise sum of a list of numeric columns (`df[SUM_COLS].sum(axis=1)`). -/
def rowwiseSum (n : Nat) (ls : List (List Rat)) : List Rat :=
  ls.foldr (fun v acc => List.zipWith (· + ·) v acc) (List.replicate n 0)

/-- `for c in miss: df[c] = 0` — create each missing monetary column
filled with 0 for every row. -/
def fillMissing (t : Table) (cs : List Str) : Table :=
  cs.foldl (fun t c => setCol t c (List.replicate (nRows t) (Cell.num 0))) t

/-- `for c in SUM_COLS: df[c] = _coerce_numeric(df[c])`. -/
def coerceCols (t : Table) (cs : List Str) : Table :=
  cs.foldl
    (fun t c => setCol t c (((lookupCol t c).getD []).map (fun cell => Cell.num (cellToRat cell))))
    t

/-- `df[SUM_COLS].sum(axis=1)`: the derived per-row aggregate. -/
def aggColumn (t : Table) : List Rat :=
  rowwiseSum (nRows t) (SUM_COLS.map (fun c => ((lookupCol t c).getD []).map cellToRat))

/-- `_prepare_df` from the source: normalize columns, create missing
monetary columns as 0, coerce every monetary column, add the per-row
aggregate column. -/
def _prepare_df (t0 : Table) : Table :=
  let t1 := (normalize_columns t0).1
  let t2 := fillMissing t1 (SUM_COLS.filter (fun c => decide (c ∉ colNames t1)))
  let t3 := coerceCols t2 SUM_COLS
  setCol t3 AGG ((aggColumn t3).map Cell.num)

/-! ### Grouped aggregation (`_group_sum`) -/

/-- The sentinel label `"미지정"` used when the grouping column is absent. -/
def sentinel : Str := sl "미지정"

/-- Lexicographic comparison of strings by code point (pandas sorts
string keys this way). -/
def strLe : Str → Str → Bool
  | [], _ => true
  | _ :: _, [] => false
  | a :: as, b :: bs =>
    if a.toNat < b.toNat then true
    else if b.toNat < a.toNat then false
    else strLe as bs

def strLE (a b : Str) : Prop := strLe a b = true

instance : DecidableRel strLE := fun a b => by unfold strLE; infer_instance

/-- Decimal digits of a natural number as characters. -/
def natChars (n : Nat) : Str := Nat.toDigits 10 n

def intChars (i : Int) : Str :=
  if i < 0 then '-' :: natChars i.natAbs else natChars i.natAbs

/-- Text view of a cell (group keys are compared and sorted as text;
the pipeline's grouping columns always hold text cells). -/
def cellText : Cell → Str
  | .txt s => s
  | .num q => if q.den = 1 then intChars q.num else intChars q.num ++ '/' :: natChars q.den

/-- A grouped total: ordered list of (category label, total), i.e. the
two-column frame produced by `_group_sum` (`구분`, `청구액`). -/
abbrev GroupedTotal := List (Str × Rat)

/-- `_group_sum` from the source: if the grouping column is absent,
work on a copy with every row's key set to the sentinel and warn; then
group the aggregate column by key (pandas sorts group keys ascending).
The `Bool` records whether the warning was emitted. -/
def _group_sum (t : Table) (by_col : Str) : GroupedTotal × Bool :=
  let t2 := if by_col ∈ colNames t then t
    else setCol t by_col (List.replicate (nRows t) (Cell.txt sentinel))
  let warned := decide (by_col ∉ colNames t)
  let keyCells := ((lookupCol t2 by_col).getD []).map cellText
  let aggVals := ((lookupCol t2 AGG).getD []).map cellToRat
  let pairs := keyCells.zip aggVals
  let keys := List.insertionSort strLE keyCells.dedup
  (keys.map (fun k => (k, ((pairs.filter (fun p => decide (p.1 = k))).map Prod.snd).sum)),
   warned)

/-! ### Basic lemmas on table operations -/

lemma find?_setCols_self (l : List (Str × List Cell)) (n : Str) (v : List Cell) :
    (setCols l n v).find? (fun p => decide (p.1 = n)) = some (n, v) := by
  induction l with
  | nil => simp [setCols]
  | cons p rest ih =>
    by_cases h : p.1 = n <;> simp [setCols, h, List.find?, ih]

lemma find?_setCols_ne (l : List (Str × List Cell)) (n : Str) (v : List Cell)
    (m : Str) (h : m ≠ n) :
    (setCols l n v).find? (fun p => decide (p.1 = m)) =
      l.find? (fun p => decide (p.1 = m)) := by
  induction l with
  | nil => simp [setCols, Ne.symm h]
  | cons p rest ih =>
    by_cases hp : p.1 = n
    · subst hp
      have : ¬ p.1 = m := fun hc => h (hc ▸ rfl)
      simp [setCols, List.find?, this, Ne.symm h]
    · by_cases hm : p.1 = m <;> simp [setCols, hp, List.find?, hm, ih, h]

lemma lookupCol_setCol_self (t : Table) (n : Str) (v : List Cell) :
    lookupCol (setCol t n v) n = some v := by
  simp [lookupCol, setCol, find?_setCols_self]

lemma lookupCol_setCol_ne (t : Table) (n : Str) (v : List Cell) (m : Str) (h : m ≠ n) :
    lookupCol (setCol t n v) m = lookupCol t m := by
  simp [lookupCol, setCol, find?_setCols_ne _ _ _ _ h]

lemma mem_setCols (l : List (Str × List Cell)) (n : Str) (v : List Cell)
    (e : Str × List Cell) (h : e ∈ setCols l n v) : e ∈ l ∨ e = (n, v) := by
  induction l with
  | nil => simpa [setCols] using h
  | cons p rest ih =>
    by_cases hp : p.1 = n
    · simp only [setCols, if_pos hp, List.mem_cons] at h
      rcases h with h | h
      · exact Or.inr h
      · exact Or.inl (List.mem_cons_of_mem p h)
    · simp only [setCols, if_neg hp, List.mem_cons] at h
      rcases h with h | h
      · exact Or.inl (h ▸ List.mem_cons_self p rest)
      · rcases ih h with h' | h'
        · exact Or.inl (List.mem_cons_of_mem p h')
        · exact Or.inr h'

lemma mem_colNames_setCol (t : Table) (n : Str) (v : List Cell) (c : Str) :
    c ∈ colNames (setCol t n v) ↔ c = n ∨ c ∈ colNames t := by
  cases t with
  | mk cols =>
    show c ∈ (setCols cols n v).map Prod.fst ↔ _
    induction cols with
    | nil => simp [setCols, colNames]
    | cons p rest ih =>
      by_cases hp : p.1 = n
      · subst hp
        simp [setCols, colNames]
      · simp only [setCols, if_neg hp, List.map_cons, List.mem_cons, colNames] at ih ⊢
        tauto

/-- Uniform column length (the pandas row-count invariant). -/
def colsLen (t : Table) (n : Nat) : Prop := ∀ p ∈ t.cols, p.2.length = n

lemma nRows_setCol_of_len (t : Table) (n' : Str) (v : List Cell)
    (h : v.length = nRows t) : nRows (setCol t n' v) = nRows t := by
  cases t with
  | mk cols =>
    cases cols with
    | nil => simpa [setCol, setCols, nRows] using h
    | cons p rest =>
      by_cases hp : p.1 = n' <;>
        · simp [setCol, setCols, hp, nRows] at h ⊢
          try omega

lemma colsLen_setCol (t : Table) (m : Nat) (n' : Str) (v : List Cell)
    (ht : colsLen t m) (hv : v.length = m) : colsLen (setCol t n' v) m := by
  intro e he
  rcases mem_setCols _ _ _ _ he with h | h
  · exact ht e h
  · simp [h, hv]

/-! ### Lemmas about `normalize_columns` (claim C7) -/

/-- In the concrete synonym table, the only canonical name occurring in
a target's alias list is that target itself. -/
lemma canon_alias_eq : ∀ p ∈ RENAME_CANDIDATES, ∀ al ∈ p.2, al ∈ CANON → al = p.1 := by
  decide

lemma buildFold_noop (cands : List (Str × List Str)) (cols : List Str)
    (h : ∀ p ∈ cands,
      p.2.find? (fun al => decide (al ∈ cols) && decide (p.1 ∉ cols)) = none) :
    ∀ m, buildFold cands cols m = m := by
  induction cands with
  | nil => intro m; rfl
  | cons p rest ih =>
    intro m
    have h0 := h p (List.mem_cons_self p rest)
    simp only [buildFold, h0]
    exact ih (fun q hq => h q (List.mem_cons_of_mem p hq)) m

lemma find_alias_none_of_canon (cols : List Str) (hcols : ∀ n ∈ cols, n ∈ CANON)
    (p : Str × List Str) (hp : p ∈ RENAME_CANDIDATES) :
    p.2.find? (fun al => decide (al ∈ cols) && decide (p.1 ∉ cols)) = none := by
  rw [List.find?_eq_none]
  intro al hal
  by_cases ht : p.1 ∈ cols
  · simp [ht]
  · simp only [Bool.and_eq_true, decide_eq_true_eq, not_and]
    intro hin
    exact absurd (canon_alias_eq p hp al hal (hcols al hin) ▸ hin) ht

lemma stripTable_id (t : Table) (h : ∀ n ∈ colNames t, stripStr n = n) :
    stripTable t = t := by
  cases t with
  | mk cols =>
    have h' : ∀ p ∈ cols, (fun p : Str × List Cell => (stripStr p.1, p.2)) p = id p := by
      intro p hp
      have := h p.1 (List.mem_map_of_mem Prod.fst hp)
      simp [this]
    show Table.mk (cols.map fun p => (stripStr p.1, p.2)) = Table.mk cols
    rw [List.map_congr_left h', List.map_id]

lemma renameTable_nil (t : Table) : renameTable t [] = t := by
  cases t with
  | mk cols =>
    show Table.mk (cols.map fun p => ((lookupRen [] p.1).getD p.1, p.2)) = Table.mk cols
    have h' : ∀ p ∈ cols, (fun p : Str × List Cell => ((lookupRen [] p.1).getD p.1, p.2)) p = id p := by
      intro p _
      simp [lookupRen]
    rw [List.map_congr_left h', List.map_id]

lemma mem_upsert (m : List (Str × Str)) (k v : Str) (e : Str × Str)
    (h : e ∈ upsert m k v) : e ∈ m ∨ e = (k, v) := by
  simp only [upsert, List.mem_append, List.mem_singleton] at h
  rcases h with h | h
  · exact Or.inl (List.mem_of_mem_filter h)
  · exact Or.inr h

lemma buildFold_mem (cands : List (Str × List Str)) (cols : List Str) :
    ∀ (m : List (Str × Str)) (e : Str × Str), e ∈ buildFold cands cols m →
      e ∈ m ∨ ∃ p ∈ cands, e.2 = p.1 ∧ p.1 ∉ cols ∧ e.1 ∈ p.2 ∧ e.1 ∈ cols := by
  induction cands with
  | nil => intro m e h; exact Or.inl h
  | cons p rest ih =>
    intro m e h
    rcases hf : p.2.find? (fun al => decide (al ∈ cols) && decide (p.1 ∉ cols)) with _ | al
    · simp only [buildFold, hf] at h
      rcases ih m e h with h' | ⟨q, hq, hrest⟩
      · exact Or.inl h'
      · exact Or.inr ⟨q, List.mem_cons_of_mem p hq, hrest⟩
    · simp only [buildFold, hf] at h
      rcases ih (upsert m al p.1) e h with h' | ⟨q, hq, hrest⟩
      · rcases mem_upsert m al p.1 e h' with h'' | h''
        · exact Or.inl h''
        · subst h''
          have hpred := List.find?_some hf
          simp only [Bool.and_eq_true, decide_eq_true_eq] at hpred
          exact Or.inr ⟨p, List.mem_cons_self p rest, rfl, hpred.2,
            List.mem_of_find?_eq_some hf, hpred.1⟩
      · exact Or.inr ⟨q, List.mem_cons_of_mem p hq, hrest⟩

lemma lookupRen_some (m : List (Str × Str)) (k v : Str) (h : lookupRen m k = some v) :
    ∃ e ∈ m, e.1 = k ∧ e.2 = v := by
  unfold lookupRen at h
  rcases he : m.find? (fun e => decide (e.1 = k)) with _ | e
  · rw [he] at h
    exact absurd h (by simp)
  · rw [he] at h
    simp only [Option.map_some', Option.some.injEq] at h
    have hm := List.mem_of_find?_eq_some he
    have hp := List.find?_some he
    simp only [decide_eq_true_eq] at hp
    exact ⟨e, hm, hp, h⟩

lemma find?_map_names (f : Str → Str) (cols : List (Str × List Cell)) (c : Str)
    (h : ∀ n : Str, (f n = c) ↔ (n = c)) :
    (List.find? (fun q => decide (q.1 = c))
        (cols.map (fun p => (f p.1, p.2)))).map Prod.snd =
      (List.find? (fun q => decide (q.1 = c)) cols).map Prod.snd := by
  induction cols with
  | nil => rfl
  | cons p rest ih =>
    by_cases hc : p.1 = c
    · have h1 : decide ((f p.1, p.2).1 = c) = true := by simp [(h p.1).mpr hc]
      have h2 : decide (p.1 = c) = true := by simp [hc]
      simp [List.find?_cons, h1, h2, (h p.1).mpr hc]
    · have h1 : decide ((f p.1, p.2).1 = c) = false := by
        simp only [decide_eq_false_iff_not]
        exact fun hx => hc ((h p.1).mp hx)
      have h2 : decide (p.1 = c) = false := by simp [hc]
      simpa [List.find?_cons, h1, h2] using ih

lemma lookupCol_renameTable (t : Table) (m : List (Str × Str)) (c : Str)
    (hkey : ∀ e ∈ m, e.1 ≠ c) (hval : ∀ e ∈ m, e.2 ≠ c) :
    lookupCol (renameTable t m) c = lookupCol t c := by
  have hiff : ∀ n : Str, ((lookupRen m n).getD n = c) ↔ (n = c) := by
    intro n
    rcases hl : lookupRen m n with _ | v
    · simp
    · rcases lookupRen_some m n v hl with ⟨e, he, hk, hv⟩
      simp only [Option.getD_some]
      constructor
      · intro hvc; exact absurd (hv.trans hvc) (hval e he)
      · intro hnc; exact absurd (hk.trans hnc) (hkey e he)
  cases t with
  | mk cols =>
    exact find?_map_names (fun n => (lookupRen m n).getD n) cols c hiff

/-- **C7.** Column normalization is a no-op on canonical input: a table
whose (whitespace-trimmed) headers are already canonical is returned
unchanged with no rename recorded; and in any table, a canonical name
already present among the (trimmed) headers is never the target of a
rename, and its column is left untouched. -/
theorem C7_normalize_canonical (t : Table) :
    ((∀ n ∈ colNames t, stripStr n = n ∧ n ∈ CANON) →
      normalize_columns t = (t, [])) ∧
    (∀ c, c ∈ CANON → c ∈ colNames (stripTable t) →
      (∀ e ∈ (normalize_columns t).2, e.2 ≠ c) ∧
      lookupCol (normalize_columns t).1 c = lookupCol (stripTable t) c) := by
  constructor
  · intro h
    have hstrip : stripTable t = t := stripTable_id t (fun n hn => (h n hn).1)
    have hcanon : ∀ n ∈ colNames (stripTable t), n ∈ CANON := by
      rw [hstrip]; exact fun n hn => (h n hn).2
    have hbuild : buildRenames RENAME_CANDIDATES (colNames (stripTable t)) = [] :=
      buildFold_noop _ _ (fun p hp => find_alias_none_of_canon _ hcanon p hp) []
    show (renameTable (stripTable t) (buildRenames RENAME_CANDIDATES (colNames (stripTable t))),
      buildRenames RENAME_CANDIDATES (colNames (stripTable t))) = (t, [])
    rw [hbuild, renameTable_nil, hstrip]
  · intro c hcanon hcols
    have hval : ∀ e ∈ (normalize_columns t).2, e.2 ≠ c := by
      intro e he hec
      rcases buildFold_mem RENAME_CANDIDATES (colNames (stripTable t)) [] e he with h | ⟨p, _, h2, h3, _, _⟩
      · exact absurd h (List.not_mem_nil e)
      · exact h3 (h2 ▸ hec ▸ hcols)
    refine ⟨hval, ?_⟩
    have hkey : ∀ e ∈ (normalize_columns t).2, e.1 ≠ c := by
      intro e he hec
      rcases buildFold_mem RENAME_CANDIDATES (colNames (stripTable t)) [] e he with h | ⟨p, hp, _, h3, h4, _⟩
      · exact absurd h (List.not_mem_nil e)
      · exact h3 (canon_alias_eq p hp e.1 h4 (hec ▸ hcanon) ▸ hec ▸ hcols)
    have h1 : (normalize_columns t).1 = renameTable (stripTable t) ((normalize_columns t).2) := rfl
    rw [h1]
    exact lookupCol_renameTable (stripTable t) (normalize_columns t).2 c hkey hval

/-- A concrete table with canonical headers. -/
def w7t : Table :=
  ⟨[(sl "청구차수", [Cell.txt (sl "1차"), Cell.txt (sl "2차")]),
    (sl "청구액", [Cell.txt (sl "100"), Cell.txt (sl "200")])]⟩

/-- Witness for C7: the theorem applied at a concrete canonical-header
table, with each hypothesis discharged by evaluation. -/
theorem C7_normalize_canonical_witness :
    (∀ n ∈ colNames w7t, stripStr n = n ∧ n ∈ CANON) ∧
    normalize_columns w7t = (w7t, []) ∧
    (sl "청구액" ∈ CANON ∧ sl "청구액" ∈ colNames (stripTable w7t)) ∧
    lookupCol (normalize_columns w7t).1 (sl "청구액") =
      lookupCol (stripTable w7t) (sl "청구액") :=
  ⟨by decide, (C7_normalize_canonical w7t).1 (by decide), ⟨by decide, by decide⟩,
    ((C7_normalize_canonical w7t).2 (sl "청구액") (by decide) (by decide)).2⟩

/-! ### Lemmas about `_prepare_df` (claim C5) -/

lemma mem_lookup_some (t : Table) (c : Str) (h : c ∈ colNames t) :
    ∃ col, lookupCol t c = some col := by
  unfold lookupCol
  rcases hf : t.cols.find? (fun p => decide (p.1 = c)) with _ | e
  · exfalso
    rw [List.find?_eq_none] at hf
    rcases List.mem_map.mp h with ⟨p, hp, hpc⟩
    exact hf p hp (by simp [hpc])
  · exact ⟨e.2, by rw [hf]; rfl⟩

lemma lookup_len (t : Table) (n : Nat) (h : colsLen t n) (c : Str) (col : List Cell)
    (hc : lookupCol t c = some col) : col.length = n := by
  unfold lookupCol at hc
  rcases hf : t.cols.find? (fun p => decide (p.1 = c)) with _ | e
  · rw [hf] at hc
    exact absurd hc (by simp)
  · rw [hf] at hc
    simp only [Option.map_some', Option.some.injEq] at hc
    exact hc ▸ h e (List.mem_of_find?_eq_some hf)

lemma nRows_map_names (cols : List (Str × List Cell)) (f : Str → Str) :
    nRows ⟨cols.map (fun p => (f p.1, p.2))⟩ = nRows ⟨cols⟩ := by
  cases cols <;> rfl

lemma colsLen_map_names (cols : List (Str × List Cell)) (f : Str → Str) (n : Nat)
    (h : colsLen ⟨cols⟩ n) : colsLen ⟨cols.map (fun p => (f p.1, p.2))⟩ n := by
  intro e he
  rcases List.mem_map.mp he with ⟨q, hq, hqe⟩
  rw [← hqe]
  exact h q hq

lemma nRows_stripTable (t : Table) : nRows (stripTable t) = nRows t := by
  cases t with
  | mk cols => exact nRows_map_names cols stripStr

lemma nRows_renameTable (t : Table) (m : List (Str × Str)) :
    nRows (renameTable t m) = nRows t := by
  cases t with
  | mk cols =>
    show nRows ⟨cols.map (fun p => ((lookupRen m p.1).getD p.1, p.2))⟩ = nRows ⟨cols⟩
    exact nRows_map_names cols (fun x => (lookupRen m x).getD x)

lemma colsLen_renameTable (t : Table) (m : List (Str × Str)) (n : Nat)
    (h : colsLen t n) : colsLen (renameTable t m) n := by
  cases t with
  | mk cols =>
    show colsLen ⟨cols.map (fun p => ((lookupRen m p.1).getD p.1, p.2))⟩ n
    exact colsLen_map_names cols (fun x => (lookupRen m x).getD x) n h

lemma colsLen_stripTable (t : Table) (n : Nat) (h : colsLen t n) :
    colsLen (stripTable t) n := by
  cases t with
  | mk cols =>
    show colsLen ⟨cols.map (fun p => (stripStr p.1, p.2))⟩ n
    exact colsLen_map_names cols _ n h

lemma nRows_normalize (t : Table) : nRows ((normalize_columns t).1) = nRows t := by
  show nRows (renameTable (stripTable t) _) = nRows t
  rw [nRows_renameTable, nRows_stripTable]

lemma colsLen_normalize (t : Table) (n : Nat) (h : colsLen t n) :
    colsLen ((normalize_columns t).1) n := by
  show colsLen (renameTable (stripTable t) _) n
  exact colsLen_renameTable _ _ n (colsLen_stripTable t n h)

lemma fill_invar (cs : List Str) : ∀ t : Table, colsLen t (nRows t) →
    colsLen (fillMissing t cs) (nRows t) ∧ nRows (fillMissing t cs) = nRows t := by
  induction cs with
  | nil => exact fun t h => ⟨h, rfl⟩
  | cons c rest ih =>
    intro t h
    have hv : (List.replicate (nRows t) (Cell.num 0)).length = nRows t := by simp
    have hn := nRows_setCol_of_len t c _ hv
    have hl := colsLen_setCol t (nRows t) c _ h hv
    have hl' : colsLen (setCol t c (List.replicate (nRows t) (Cell.num 0)))
        (nRows (setCol t c (List.replicate (nRows t) (Cell.num 0)))) := by
      rw [hn]; exact hl
    have := ih _ hl'
    unfold fillMissing at this ⊢
    simp only [List.foldl_cons]
    rw [hn] at this
    exact this

lemma fill_mem_mono (cs : List Str) : ∀ (t : Table) (c : Str), c ∈ colNames t →
    c ∈ colNames (fillMissing t cs) := by
  induction cs with
  | nil => exact fun _ _ h => h
  | cons d rest ih =>
    intro t c h
    unfold fillMissing
    simp only [List.foldl_cons]
    exact ih _ c ((mem_colNames_setCol _ _ _ _).mpr (Or.inr h))

lemma fill_mem_self (cs : List Str) : ∀ (t : Table) (c : Str), c ∈ cs →
    c ∈ colNames (fillMissing t cs) := by
  induction cs with
  | nil => intro _ _ h; exact absurd h (List.not_mem_nil _)
  | cons d rest ih =>
    intro t c h
    unfold fillMissing
    simp only [List.foldl_cons]
    rcases List.mem_cons.mp h with h | h
    · subst h
      exact fill_mem_mono rest _ c ((mem_colNames_setCol _ _ _ _).mpr (Or.inl rfl))
    · exact ih _ c h

lemma coerce_invar (cs : List Str) : ∀ t : Table, colsLen t (nRows t) →
    (∀ c ∈ cs, c ∈ colNames t) →
    colsLen (coerceCols t cs) (nRows t) ∧ nRows (coerceCols t cs) = nRows t ∧
      (∀ d, d ∈ colNames (coerceCols t cs) ↔ d ∈ colNames t) := by
  induction cs with
  | nil => exact fun t h _ => ⟨h, rfl, fun _ => Iff.rfl⟩
  | cons c rest ih =>
    intro t h hcs
    obtain ⟨col, hcol⟩ := mem_lookup_some t c (hcs c (List.mem_cons_self c rest))
    have hlen : col.length = nRows t := lookup_len t (nRows t) h c col hcol
    have hv : (((lookupCol t c).getD []).map (fun cell => Cell.num (cellToRat cell))).length
        = nRows t := by simp [hcol, hlen]
    have hn := nRows_setCol_of_len t c _ hv
    have hl := colsLen_setCol t (nRows t) c _ h hv
    set t' := setCol t c (((lookupCol t c).getD []).map (fun cell => Cell.num (cellToRat cell)))
      with ht'
    have hmem : ∀ d, d ∈ colNames t' ↔ d ∈ colNames t := by
      intro d
      rw [ht', mem_colNames_setCol]
      constructor
      · rintro (rfl | hd)
        · exact hcs d (List.mem_cons_self d rest)
        · exact hd
      · exact Or.inr
    have hl' : colsLen t' (nRows t') := by rw [hn]; exact hl
    have hcs' : ∀ d ∈ rest, d ∈ colNames t' :=
      fun d hd => (hmem d).mpr (hcs d (List.mem_cons_of_mem c hd))
    have hrec := ih t' hl' hcs'
    unfold coerceCols at hrec ⊢
    simp only [List.foldl_cons]
    rw [hn] at hrec
    exact ⟨hrec.1, hrec.2.1, fun d => (hrec.2.2 d).trans (hmem d)⟩

lemma rowwiseSum_len (n : Nat) (ls : List (List Rat)) (h : ∀ v ∈ ls, v.length = n) :
    (rowwiseSum n ls).length = n := by
  induction ls with
  | nil => simp [rowwiseSum]
  | cons v rest ih =>
    have hr : (rowwiseSum n rest).length = n :=
      ih (fun w hw => h w (List.mem_cons_of_mem v hw))
    show (List.zipWith (· + ·) v (rowwiseSum n rest)).length = n
    rw [List.length_zipWith, hr, h v (List.mem_cons_self v rest)]
    omega

lemma AGG_not_sum : AGG ∉ SUM_COLS := by decide

/-- **C5.** For every well-formed raw table, `_prepare_df` produces a
table containing every canonical monetary column, whose derived
aggregate column is exactly the row-wise sum, over `SUM_COLS`, of the
post-coercion numeric values of the output table's monetary columns,
and the aggregate is defined for every row (its length is the input's
row count). -/
theorem C5_prepare_aggregate (t : Table) (hwf : wf t) :
    (∀ c ∈ SUM_COLS, c ∈ colNames (_prepare_df t)) ∧
    lookupCol (_prepare_df t) AGG =
      some ((rowwiseSum (nRows t)
        (SUM_COLS.map (fun c => ((lookupCol (_prepare_df t) c).getD []).map cellToRat))).map
          Cell.num) ∧
    ((lookupCol (_prepare_df t) AGG).getD []).length = nRows t := by
  have hlen0 : colsLen t (nRows t) := hwf.2
  set t1 := (normalize_columns t).1 with ht1
  have hl1 : colsLen t1 (nRows t1) := by
    rw [nRows_normalize]
    exact colsLen_normalize t (nRows t) hlen0
  set miss := SUM_COLS.filter (fun c => decide (c ∉ colNames t1)) with hmiss
  set t2 := fillMissing t1 miss with ht2
  obtain ⟨hl2, hn2⟩ := fill_invar miss t1 hl1
  have hn2' : nRows t2 = nRows t := by rw [ht2, hn2, nRows_normalize]
  have hsum2 : ∀ c ∈ SUM_COLS, c ∈ colNames t2 := by
    intro c hc
    by_cases h : c ∈ colNames t1
    · exact fill_mem_mono miss t1 c h
    · exact fill_mem_self miss t1 c (by rw [hmiss]; simp [hc, h])
  have hl2' : colsLen t2 (nRows t2) := by rw [ht2, hn2]; exact hl2
  set t3 := coerceCols t2 SUM_COLS with ht3
  obtain ⟨hl3, hn3, hmem3⟩ := coerce_invar SUM_COLS t2 hl2' hsum2
  have hn3' : nRows t3 = nRows t := by rw [ht3, hn3, hn2']
  have hl3' : colsLen t3 (nRows t3) := by rw [ht3, hn3]; exact hl3
  have hsum3 : ∀ c ∈ SUM_COLS, c ∈ colNames t3 :=
    fun c hc => (hmem3 c).mpr (hsum2 c hc)
  have hp : _prepare_df t = setCol t3 AGG ((aggColumn t3).map Cell.num) := rfl
  have hAGG : lookupCol (_prepare_df t) AGG = some ((aggColumn t3).map Cell.num) := by
    rw [hp]
    exact lookupCol_setCol_self t3 AGG _
  have hc3 : ∀ c ∈ SUM_COLS, lookupCol (_prepare_df t) c = lookupCol t3 c := by
    intro c hc
    rw [hp]
    exact lookupCol_setCol_ne t3 AGG _ c (fun hca => AGG_not_sum (hca ▸ hc))
  have hspan : ∀ v ∈ SUM_COLS.map (fun c => ((lookupCol t3 c).getD []).map cellToRat),
      v.length = nRows t3 := by
    intro v hv
    rcases List.mem_map.mp hv with ⟨c, hc, hcv⟩
    obtain ⟨col, hcol⟩ := mem_lookup_some t3 c (hsum3 c hc)
    have := lookup_len t3 (nRows t3) hl3' c col hcol
    rw [← hcv, hcol]
    simp [this]
  refine ⟨?_, ?_, ?_⟩
  · intro c hc
    rw [hp]
    exact (mem_colNames_setCol _ _ _ c).mpr (Or.inr (hsum3 c hc))
  · rw [hAGG]
    have hmaps : SUM_COLS.map (fun c => ((lookupCol (_prepare_df t) c).getD []).map cellToRat) =
        SUM_COLS.map (fun c => ((lookupCol t3 c).getD []).map cellToRat) :=
      List.map_congr_left (fun c hc => by rw [hc3 c hc])
    rw [hmaps]
    unfold aggColumn
    rw [hn3']
  · rw [hAGG]
    simp only [Option.getD_some, List.length_map]
    unfold aggColumn
    rw [rowwiseSum_len (nRows t3) _ hspan, hn3']

/-- A concrete raw table (one row, one alias-named monetary column). -/
def w5t : Table :=
  ⟨[(sl "청구차수", [Cell.txt (sl "1차")]), (sl "청구 금액", [Cell.txt (sl "1,000")])]⟩

/-- Witness for C5: the theorem applied at a concrete well-formed raw
table. -/
theorem C5_prepare_aggregate_witness :
    wf w5t ∧
    ((∀ c ∈ SUM_COLS, c ∈ colNames (_prepare_df w5t)) ∧
     lookupCol (_prepare_df w5t) AGG =
       some ((rowwiseSum (nRows w5t)
         (SUM_COLS.map (fun c => ((lookupCol (_prepare_df w5t) c).getD []).map cellToRat))).map
           Cell.num) ∧
     ((lookupCol (_prepare_df w5t) AGG).getD []).length = nRows w5t) :=
  ⟨⟨by decide, by decide⟩, C5_prepare_aggregate w5t ⟨by decide, by decide⟩⟩

/-! ### Lemmas about `_group_sum` (claim C8) -/

lemma dedup_replicate_pos (n : Nat) (x : Str) (h : 0 < n) :
    (List.replicate n x).dedup = [x] := by
  induction n with
  | zero => omega
  | succ m ih =>
    cases Nat.eq_zero_or_pos m with
    | inl hm => subst hm; simp
    | inr hm =>
      rw [List.replicate_succ, List.dedup_cons_of_mem (by simp [List.mem_replicate]; omega)]
      exact ih hm

lemma zip_replicate_map (l : List Rat) (x : Str) :
    (List.replicate l.length x).zip l = l.map (fun v => (x, v)) := by
  induction l with
  | nil => rfl
  | cons v rest ih => simp [List.replicate_succ, ih]

lemma map_snd_filter_sentinel (l : List Cell) :
    (List.map Prod.snd (List.filter (fun p => decide (p.1 = sentinel))
      (List.map ((fun v => (sentinel, v)) ∘ cellToRat) l))).sum =
    (List.map cellToRat l).sum := by
  induction l with
  | nil => rfl
  | cons c rest ih => simpa using ih

/-- **C8 (amended).** For every nonempty prepared table (the aggregate
column present, uniform column lengths, at least one row) whose
grouping column is absent, `_group_sum` does not fail: it substitutes
the sentinel `"미지정"` for every row, emits the warning, and returns
exactly one group whose total is the sum of the aggregate column over
the whole table.  (On a zero-row table the code returns zero groups,
not one — see the counterexample.) -/
theorem C8_group_sentinel (t : Table) (by_col : Str)
    (habs : by_col ∉ colNames t) (hagg : AGG ∈ colNames t)
    (hlen : colsLen t (nRows t)) (hpos : 0 < nRows t) :
    _group_sum t by_col =
      ([(sentinel, (((lookupCol t AGG).getD []).map cellToRat).sum)], true) := by
  have hAB : AGG ≠ by_col := fun h => habs (h ▸ hagg)
  obtain ⟨col, hcol⟩ := mem_lookup_some t AGG hagg
  have hcl : col.length = nRows t := lookup_len t (nRows t) hlen AGG col hcol
  have h1 : lookupCol (setCol t by_col (List.replicate (nRows t) (Cell.txt sentinel))) by_col =
      some (List.replicate (nRows t) (Cell.txt sentinel)) := lookupCol_setCol_self _ _ _
  have h2 : lookupCol (setCol t by_col (List.replicate (nRows t) (Cell.txt sentinel))) AGG =
      lookupCol t AGG := lookupCol_setCol_ne _ _ _ _ hAB
  have hkeys : (List.replicate (nRows t) sentinel).dedup = [sentinel] :=
    dedup_replicate_pos _ _ hpos
  have hsort : List.insertionSort strLE [sentinel] = [sentinel] := rfl
  have hzip : (List.replicate (nRows t) sentinel).zip (col.map cellToRat) =
      (col.map cellToRat).map (fun v => (sentinel, v)) := by
    have h : nRows t = (col.map cellToRat).length := by simp [hcl]
    rw [h]
    exact zip_replicate_map _ _
  have hfilter : ((col.map cellToRat).map (fun v => (sentinel, v))).filter
      (fun p => decide (p.1 = sentinel)) = (col.map cellToRat).map (fun v => (sentinel, v)) := by
    apply List.filter_eq_self.mpr
    intro e he
    rcases List.mem_map.mp he with ⟨v, _, hv⟩
    simp [← hv]
  unfold _group_sum
  simp only [if_neg habs, h1, h2, hcol, Option.getD_some, List.map_replicate, cellText,
    hkeys, hsort, hzip, hfilter]
  simp [List.map_map, decide_eq_true habs, Function.comp]
  exact map_snd_filter_sentinel col

/-- Counterexample to C8 as stated: on the (reachable) zero-row
prepared table, `_group_sum` with an absent grouping column returns
zero groups, not exactly one. -/
theorem C8_group_counterexample :
    sl "청구차수" ∉ colNames (_prepare_df ⟨[]⟩) ∧
    (_group_sum (_prepare_df ⟨[]⟩) (sl "청구차수")).1 = [] := by
  constructor <;> decide

/-- A concrete one-row prepared table for exercising `C8_group_sentinel`. -/
def w8t : Table := _prepare_df ⟨[(sl "지원금", [Cell.txt (sl "5")])]⟩

/-- Witness for C8 (amended): the theorem applied at a concrete
one-row prepared table whose grouping column is absent. -/
theorem C8_group_sentinel_witness :
    (sl "청구차수" ∉ colNames w8t ∧ AGG ∈ colNames w8t ∧ colsLen w8t (nRows w8t) ∧
      0 < nRows w8t) ∧
    _group_sum w8t (sl "청구차수") =
      ([(sentinel, (((lookupCol w8t AGG).getD []).map cellToRat).sum)], true) :=
  ⟨⟨by decide, by decide, by unfold colsLen; decide, by decide⟩,
    C8_group_sentinel w8t (sl "청구차수") (by decide) (by decide)
      (by unfold colsLen; decide) (by decide)⟩

/-! ### Delta markers and the month comparison (`fmt`, `_compare`) -/

def digitChar (d : Nat) : Char := Char.ofNat (48 + d)

/-- Decimal digits (least significant first) rendered least significant
first, a separator inserted before every further group of three — the
grouping of Python's `f"{n:,}"` seen from the right. -/
def commaGroupAux : List Nat → List Char
  | [] => []
  | d :: tl =>
    (d :: tl.take 2).map digitChar ++
      (if (tl.drop 2).isEmpty then [] else ',' :: commaGroupAux (tl.drop 2))
termination_by l => l.length
decreasing_by simp; omega

/-- Python's thousands-separated integer formatting `f"{n:,}"`. -/
def commaFmt (n : Nat) : Str :=
  if n = 0 then ['0'] else (commaGroupAux (Nat.digits 10 n)).reverse

/-- `fmt` from the source: positive delta renders `▼`, negative `▲`,
zero the neutral dash; the numeric portion is `f"{int(abs(delta)):,}"`
(absolute value truncated to an integer, thousands-separated). -/
def fmt (delta : Rat) : Str :=
  if delta > 0 then '▼' :: commaFmt (⌊|delta|⌋).toNat
  else if delta < 0 then '▲' :: commaFmt (⌊|delta|⌋).toNat
  else ['—']

/-- One row of the comparison frame: `구분`, `청구액_전달`,
`청구액_당월`, `증감(기호)`, `증감`. -/
structure CompRow where
  cat : Str
  prior : Rat
  curr : Rat
  marker : Str
  delta : Rat
deriving DecidableEq, Repr

def gLookup : GroupedTotal → Str → Option Rat
  | [], _ => none
  | (k, v) :: rest, key => if k = key then some v else gLookup rest key

/-- `sort_values("구분")` compares rows by their category label. -/
def rowLe (a b : CompRow) : Prop := strLE a.cat b.cat

instance : DecidableRel rowLe := fun a b => by unfold rowLe strLE; infer_instance

/-- `_compare` from the source: outer-merge the two grouped totals on
the category label (left keys in order, then right-only keys), fill
missing sides with 0, compute the signed delta and its marker, sort
ascending by category label. -/
def _compare (prev curr : GroupedTotal) : List CompRow :=
  let prevKeys := prev.map Prod.fst
  let keys := prevKeys ++ (curr.map Prod.fst).filter (fun k => decide (k ∉ prevKeys))
  let rows := keys.map (fun k =>
    let p := (gLookup prev k).getD 0
    let c := (gLookup curr k).getD 0
    CompRow.mk k p c (fmt (c - p)) (c - p))
  List.insertionSort rowLe rows

/-! ### Lemmas about the marker formatting (claim C6) -/

lemma digitChar_ne_comma (d : Nat) (h : d < 10) : digitChar d ≠ ',' := by
  interval_cases d <;> decide

lemma digitVal_digitChar (d : Nat) (h : d < 10) : digitVal (digitChar d) = d := by
  interval_cases d <;> decide

lemma stripCommas_map_digitChar (ds : List Nat) (h : ∀ d ∈ ds, d < 10) :
    stripCommas (ds.map digitChar) = ds.map digitChar := by
  apply List.filter_eq_self.mpr
  intro c hc
  rcases List.mem_map.mp hc with ⟨d, hd, hdc⟩
  simpa [← hdc] using digitChar_ne_comma d (h d hd)

lemma stripCommas_commaGroupAux : ∀ (k : Nat) (ds : List Nat), ds.length ≤ k →
    (∀ d ∈ ds, d < 10) → stripCommas (commaGroupAux ds) = ds.map digitChar := by
  intro k
  induction k with
  | zero =>
    intro ds hlen _
    have : ds = [] := List.eq_nil_of_length_eq_zero (by omega)
    subst this
    rw [commaGroupAux]
    rfl
  | succ m ih =>
    intro ds hlen hd
    match ds with
    | [] =>
      rw [commaGroupAux]
      rfl
    | d :: tl =>
      rw [commaGroupAux]
      have hhead : ∀ e ∈ d :: tl.take 2, e < 10 := by
        intro e he
        rcases List.mem_cons.mp he with he | he
        · exact he ▸ hd d (List.mem_cons_self d tl)
        · exact hd e (List.mem_cons_of_mem d (List.mem_of_mem_take he))
      show stripCommas ((d :: tl.take 2).map digitChar ++ _) = _
      rw [stripCommas, List.filter_append]
      have h1 : (List.filter (fun c => decide (c ≠ ',')) ((d :: tl.take 2).map digitChar)) =
          (d :: tl.take 2).map digitChar := stripCommas_map_digitChar _ hhead
      rw [h1]
      by_cases hdrop : (tl.drop 2).isEmpty
      · have htl : tl.take 2 = tl := by
          have : tl.length ≤ 2 := by
            rcases List.isEmpty_iff.mp hdrop with h
            have := congrArg List.length h
            simp at this
            omega
          exact List.take_of_length_le this
        simp [hdrop, htl]
      · have hrec : stripCommas (commaGroupAux (tl.drop 2)) = (tl.drop 2).map digitChar := by
          apply ih
          · have := List.length_drop 2 tl
            simp at hlen
            omega
          · exact fun e he => hd e (List.mem_cons_of_mem d (List.mem_of_mem_drop he))
        have hcomma : List.filter (fun c => decide (c ≠ ','))
            (',' :: commaGroupAux (tl.drop 2)) = stripCommas (commaGroupAux (tl.drop 2)) := by
          simp [stripCommas, List.filter]
        simp only [if_neg hdrop, hcomma, hrec]
        rw [← List.map_append, List.cons_append, List.take_append_drop]

lemma decValue_rev_digits (ds : List Nat) (h : ∀ d ∈ ds, d < 10) : ∀ a : Nat,
    List.foldl (fun acc c => 10 * acc + digitVal c) a ((ds.map digitChar).reverse) =
      a * 10 ^ ds.length + Nat.ofDigits 10 ds := by
  induction ds with
  | nil => intro a; simp [Nat.ofDigits]
  | cons d tl ih =>
    intro a
    rw [List.map_cons, List.reverse_cons, List.foldl_append]
    have hih := ih (fun e he => h e (List.mem_cons_of_mem d he)) a
    rw [hih]
    simp only [List.foldl_cons, List.foldl_nil]
    rw [digitVal_digitChar d (h d (List.mem_cons_self d tl))]
    rw [Nat.ofDigits_cons, List.length_cons, pow_succ]
    ring

lemma decValue_commaFmt (n : Nat) : decValue (stripCommas (commaFmt n)) = n := by
  by_cases h : n = 0
  · subst h
    decide
  · unfold commaFmt
    rw [if_neg h]
    have hlt : ∀ d ∈ Nat.digits 10 n, d < 10 :=
      fun d hd => Nat.digits_lt_base (by omega) hd
    have h1 : stripCommas ((commaGroupAux (Nat.digits 10 n)).reverse) =
        (stripCommas (commaGroupAux (Nat.digits 10 n))).reverse := by
      simp [stripCommas, List.filter_reverse]
    rw [h1, stripCommas_commaGroupAux (Nat.digits 10 n).length _ le_rfl hlt]
    unfold decValue
    rw [decValue_rev_digits _ hlt 0]
    simp [Nat.ofDigits_digits]

/-- **C6.** A delta of exactly 0 renders the neutral marker `—`; for
every non-zero delta the marker is a directional glyph followed by a
numeric portion which, with its thousands separators stripped, reads
back as the absolute value of the delta truncated to an integer; and
the delta value stored in every comparison row is the exact difference
(full numeric precision). -/
theorem C6_marker_format (d : Rat) :
    (d = 0 → fmt d = ['—']) ∧
    (d ≠ 0 → ∃ rest, (fmt d = '▼' :: rest ∨ fmt d = '▲' :: rest) ∧
      decValue (stripCommas rest) = (⌊|d|⌋).toNat) ∧
    (∀ prev curr : GroupedTotal,
      (_compare prev curr).map CompRow.delta =
        (_compare prev curr).map (fun r => r.curr - r.prior)) := by
  refine ⟨?_, ?_, ?_⟩
  · intro h
    subst h
    rfl
  · intro h
    rcases lt_trichotomy d 0 with hlt | heq | hgt
    · exact ⟨commaFmt (⌊|d|⌋).toNat,
        Or.inr (by simp [fmt, hlt, not_lt_of_lt hlt, lt_asymm hlt]),
        decValue_commaFmt _⟩
    · exact absurd heq h
    · exact ⟨commaFmt (⌊|d|⌋).toNat, Or.inl (by simp [fmt, hgt]), decValue_commaFmt _⟩
  · intro prev curr
    apply List.map_congr_left
    intro r hr
    unfold _compare at hr
    have hr' := (List.perm_insertionSort rowLe _).mem_iff.mp hr
    rcases List.mem_map.mp hr' with ⟨k, _, hk⟩
    rw [← hk]

/-- Witness for C6: the theorem applied at delta 0 and at the concrete
non-zero delta −1234567.5 (whose truncated magnitude is 1234567). -/
theorem C6_marker_format_witness :
    ((0 : Rat) = 0 ∧ fmt 0 = ['—']) ∧
    ((-1234567.5 : Rat) ≠ 0 ∧
      ∃ rest, (fmt (-1234567.5) = '▼' :: rest ∨ fmt (-1234567.5) = '▲' :: rest) ∧
        decValue (stripCommas rest) = (⌊|(-1234567.5 : Rat)|⌋).toNat) :=
  ⟨⟨rfl, (C6_marker_format 0).1 rfl⟩,
    ⟨by norm_num, (C6_marker_format (-1234567.5)).2.1 (by norm_num)⟩⟩

/-! ### Lemmas about `_compare` (claim C1) -/

lemma strLe_total : ∀ a b : Str, strLe a b = true ∨ strLe b a = true := by
  intro a
  induction a with
  | nil => intro b; exact Or.inl rfl
  | cons x xs ih =>
    intro b
    cases b with
    | nil => exact Or.inr rfl
    | cons y ys =>
      by_cases h1 : x.toNat < y.toNat
      · exact Or.inl (by simp [strLe, h1])
      · by_cases h2 : y.toNat < x.toNat
        · exact Or.inr (by simp [strLe, h2])
        · rcases ih ys with h | h
          · exact Or.inl (by simp [strLe, h1, h2, h])
          · exact Or.inr (by simp [strLe, h1, h2, h])

lemma strLe_trans : ∀ a b c : Str, strLe a b = true → strLe b c = true →
    strLe a c = true := by
  intro a
  induction a with
  | nil => intro b c _ _; rfl
  | cons x xs ih =>
    intro b c hab hbc
    cases b with
    | nil => exact absurd hab (by simp [strLe])
    | cons y ys =>
      cases c with
      | nil => exact absurd hbc (by simp [strLe])
      | cons z zs =>
        simp only [strLe] at hab hbc ⊢
        by_cases hxy : x.toNat < y.toNat
        · by_cases hyz : y.toNat < z.toNat
          · rw [if_pos (show x.toNat < z.toNat by omega)]
          · by_cases hzy : z.toNat < y.toNat
            · rw [if_neg hyz, if_pos hzy] at hbc
              exact absurd hbc (by simp)
            · rw [if_pos (show x.toNat < z.toNat by omega)]
        · by_cases hyx : y.toNat < x.toNat
          · rw [if_neg hxy, if_pos hyx] at hab
            exact absurd hab (by simp)
          · rw [if_neg hxy, if_neg hyx] at hab
            by_cases hyz : y.toNat < z.toNat
            · rw [if_pos (show x.toNat < z.toNat by omega)]
            · by_cases hzy : z.toNat < y.toNat
              · rw [if_neg hyz, if_pos hzy] at hbc
                exact absurd hbc (by simp)
              · rw [if_neg hyz, if_neg hzy] at hbc
                rw [if_neg (show ¬ x.toNat < z.toNat by omega),
                  if_neg (show ¬ z.toNat < x.toNat by omega)]
                exact ih ys zs hab hbc

instance : IsTotal CompRow rowLe := ⟨fun a b => strLe_total a.cat b.cat⟩

instance : IsTrans CompRow rowLe := ⟨fun a b c => strLe_trans a.cat b.cat c.cat⟩

lemma gLookup_not_mem (g : GroupedTotal) (k : Str) (h : k ∉ g.map Prod.fst) :
    gLookup g k = none := by
  induction g with
  | nil => rfl
  | cons e rest ih =>
    simp only [List.map_cons, List.mem_cons, not_or] at h
    cases e with
    | mk a v =>
      show (if a = k then some v else gLookup rest k) = none
      rw [if_neg (fun hc => h.1 hc.symm)]
      exact ih h.2

lemma gLookup_mem_some (g : GroupedTotal) (k : Str) (h : k ∈ g.map Prod.fst) :
    ∃ v, gLookup g k = some v := by
  induction g with
  | nil => exact absurd h (List.not_mem_nil k)
  | cons e rest ih =>
    cases e with
    | mk a v =>
      by_cases hk : a = k
      · exact ⟨v, by simp [gLookup, hk]⟩
      · have : k ∈ rest.map Prod.fst := by
          simp only [List.map_cons, List.mem_cons] at h
          rcases h with h | h
          · exact absurd h.symm hk
          · exact h
        rcases ih this with ⟨w, hw⟩
        exact ⟨w, by simpa [gLookup, hk] using hw⟩

/-- **C1.** For grouped totals with distinct category labels, the Month
Comparator produces exactly one row per category of the union of the
two label sets (no label dropped or duplicated), a side on which the
label is absent contributes 0 while a present side contributes its
recorded total, every row's delta is current minus prior, and the rows
are sorted ascending by category label. -/
theorem C1_compare_outer_join (prev curr : GroupedTotal)
    (h1 : (prev.map Prod.fst).Nodup) (h2 : (curr.map Prod.fst).Nodup) :
    ((_compare prev curr).map CompRow.cat).Nodup ∧
    (∀ k, k ∈ (_compare prev curr).map CompRow.cat ↔
      k ∈ prev.map Prod.fst ∨ k ∈ curr.map Prod.fst) ∧
    (∀ r ∈ _compare prev curr,
      (r.cat ∉ prev.map Prod.fst → r.prior = 0) ∧
      (r.cat ∈ prev.map Prod.fst → gLookup prev r.cat = some r.prior) ∧
      (r.cat ∉ curr.map Prod.fst → r.curr = 0) ∧
      (r.cat ∈ curr.map Prod.fst → gLookup curr r.cat = some r.curr) ∧
      r.delta = r.curr - r.prior) ∧
    List.Sorted strLE ((_compare prev curr).map CompRow.cat) := by
  set prevKeys := prev.map Prod.fst with hpk
  set keys := prevKeys ++ (curr.map Prod.fst).filter (fun k => decide (k ∉ prevKeys))
    with hkeys
  set mkRow := fun k =>
    CompRow.mk k ((gLookup prev k).getD 0) ((gLookup curr k).getD 0)
      (fmt ((gLookup curr k).getD 0 - (gLookup prev k).getD 0))
      ((gLookup curr k).getD 0 - (gLookup prev k).getD 0) with hmk
  have hcmp : _compare prev curr = List.insertionSort rowLe (keys.map mkRow) := rfl
  have hperm : List.Perm (_compare prev curr) (keys.map mkRow) := by
    rw [hcmp]
    exact List.perm_insertionSort rowLe _
  have hmapcat : (keys.map mkRow).map CompRow.cat = keys := by
    rw [List.map_map]
    have h : CompRow.cat ∘ mkRow = id := by
      funext k
      simp [hmk]
    rw [h, List.map_id]
  have hpermcat : List.Perm ((_compare prev curr).map CompRow.cat) keys := by
    have := hperm.map CompRow.cat
    rwa [hmapcat] at this
  have hkeysnodup : keys.Nodup := by
    rw [hkeys]
    refine List.Nodup.append h1 (h2.filter _) ?_
    intro a ha hfa
    have := (List.mem_filter.mp hfa).2
    simp only [decide_eq_true_eq] at this
    exact this ha
  have hmemkeys : ∀ k, k ∈ keys ↔ k ∈ prevKeys ∨ k ∈ curr.map Prod.fst := by
    intro k
    rw [hkeys]
    simp only [List.mem_append, List.mem_filter, decide_eq_true_eq]
    constructor
    · rintro (h | ⟨h, _⟩)
      · exact Or.inl h
      · exact Or.inr h
    · rintro (h | h)
      · exact Or.inl h
      · by_cases hp : k ∈ prevKeys
        · exact Or.inl hp
        · exact Or.inr ⟨h, hp⟩
  refine ⟨?_, ?_, ?_, ?_⟩
  · exact (hpermcat.nodup_iff).mpr hkeysnodup
  · intro k
    rw [hpermcat.mem_iff]
    exact hmemkeys k
  · intro r hr
    have hr' := hperm.mem_iff.mp hr
    rcases List.mem_map.mp hr' with ⟨k, _, hk⟩
    subst hk
    refine ⟨?_, ?_, ?_, ?_, rfl⟩
    · intro h
      show (gLookup prev (mkRow k).cat).getD 0 = 0
      rw [gLookup_not_mem prev _ h]
      rfl
    · intro h
      rcases gLookup_mem_some prev _ h with ⟨v, hv⟩
      show gLookup prev (mkRow k).cat = some ((gLookup prev (mkRow k).cat).getD 0)
      rw [hv]
      rfl
    · intro h
      show (gLookup curr (mkRow k).cat).getD 0 = 0
      rw [gLookup_not_mem curr _ h]
      rfl
    · intro h
      rcases gLookup_mem_some curr _ h with ⟨v, hv⟩
      show gLookup curr (mkRow k).cat = some ((gLookup curr (mkRow k).cat).getD 0)
      rw [hv]
      rfl
  · have hs : List.Sorted rowLe (_compare prev curr) := by
      rw [hcmp]
      exact List.sorted_insertionSort rowLe _
    exact List.pairwise_map.mpr hs

/-- Witness for C1: the theorem applied at concrete grouped totals with
distinct labels. -/
theorem C1_compare_outer_join_witness :
    ([sl "1차", sl "2차"].Nodup ∧ [sl "2차", sl "3차"].Nodup) ∧
    (((_compare [(sl "1차", 1000000), (sl "2차", 800000)]
        [(sl "2차", 700000), (sl "3차", 600000)]).map CompRow.cat).Nodup ∧
     (∀ k, k ∈ (_compare [(sl "1차", 1000000), (sl "2차", 800000)]
        [(sl "2차", 700000), (sl "3차", 600000)]).map CompRow.cat ↔
        k ∈ [(sl "1차", (1000000 : Rat)), (sl "2차", 800000)].map Prod.fst ∨
        k ∈ [(sl "2차", (700000 : Rat)), (sl "3차", 600000)].map Prod.fst) ∧
     (∀ r ∈ _compare [(sl "1차", 1000000), (sl "2차", 800000)]
        [(sl "2차", 700000), (sl "3차", 600000)],
       (r.cat ∉ [(sl "1차", (1000000 : Rat)), (sl "2차", 800000)].map Prod.fst → r.prior = 0) ∧
       (r.cat ∈ [(sl "1차", (1000000 : Rat)), (sl "2차", 800000)].map Prod.fst →
         gLookup [(sl "1차", 1000000), (sl "2차", 800000)] r.cat = some r.prior) ∧
       (r.cat ∉ [(sl "2차", (700000 : Rat)), (sl "3차", 600000)].map Prod.fst → r.curr = 0) ∧
       (r.cat ∈ [(sl "2차", (700000 : Rat)), (sl "3차", 600000)].map Prod.fst →
         gLookup [(sl "2차", 700000), (sl "3차", 600000)] r.cat = some r.curr) ∧
       r.delta = r.curr - r.prior) ∧
     List.Sorted strLE ((_compare [(sl "1차", 1000000), (sl "2차", 800000)]
        [(sl "2차", 700000), (sl "3차", 600000)]).map CompRow.cat)) :=
  ⟨⟨by decide, by decide⟩,
    C1_compare_outer_join [(sl "1차", 1000000), (sl "2차", 800000)]
      [(sl "2차", 700000), (sl "3차", 600000)] (by decide) (by decide)⟩

/-! ### Reconciliation Checker (claim C2) -/

inductive ReconStatus
  | noData
  | consistent
  | inconsistent
deriving DecidableEq, Repr

structure ReconResult where
  status : ReconStatus
  gap : Rat
deriving DecidableEq, Repr

/-- Grand total of a grouped total: sum across all category labels. -/
def grandTotal (g : GroupedTotal) : Rat := (g.map Prod.snd).sum

/-- Modelled from the spec: the grand-total comparison of §4.6's
Reconciliation Checker, which is absent from src/main.py.  With no
available totals the month reports "no data"; otherwise the status is
consistent exactly when max − min = 0, and the max-minus-min gap is
reported. -/
def reconcileTotals (ts : List Rat) : ReconResult :=
  match ts with
  | [] => ⟨ReconStatus.noData, 0⟩
  | x :: xs =>
    ⟨if xs.foldl max x - xs.foldl min x = 0 then ReconStatus.consistent
      else ReconStatus.inconsistent,
     xs.foldl max x - xs.foldl min x⟩

/-- Modelled from the spec: the Reconciliation Checker for one month —
doctor-category data grouped by its category column `청구차수`,
claim-category data grouped by `보험유형` and by `입원/외래`, their
grand totals compared (absent from src/main.py). -/
def reconcileMonth (docData claimData : Option Table) : ReconResult :=
  let docTs := match docData with
    | some t => [grandTotal (_group_sum t (sl "청구차수")).1]
    | none => []
  let claimTs := match claimData with
    | some t => [grandTotal (_group_sum t (sl "보험유형")).1,
                 grandTotal (_group_sum t (sl "입원/외래")).1]
    | none => []
  reconcileTotals (docTs ++ claimTs)

lemma max_min_eq_iff (a b c : Rat) :
    max (max a b) c - min (min a b) c = 0 ↔ (a = b ∧ a = c) := by
  rw [sub_eq_zero]
  constructor
  · intro h
    have h1 : min (min a b) c ≤ a := le_trans (min_le_left _ _) (min_le_left _ _)
    have h2 : a ≤ max (max a b) c := le_trans (le_max_left _ _) (le_max_left _ _)
    have h3 : min (min a b) c ≤ b := le_trans (min_le_left _ _) (min_le_right _ _)
    have h4 : b ≤ max (max a b) c := le_trans (le_max_right _ _) (le_max_left _ _)
    have h5 : min (min a b) c ≤ c := min_le_right _ _
    have h6 : c ≤ max (max a b) c := le_max_right _ _
    constructor <;> linarith
  · rintro ⟨h1, h2⟩
    rw [← h1, ← h2]
    simp

/-- **C2.** For a month with both kinds of data, the Reconciliation
Checker computes the three grouped grand totals (doctor data by its
category column, claim data by insurance type and by
inpatient/outpatient) and reports consistent exactly when the maximum
grand total minus the minimum equals 0, otherwise inconsistent with the
max-minus-min gap; grand totals 2,200,000 / 2,200,000 / 2,100,000 yield
inconsistent with gap 100,000. -/
theorem C2_reconciliation :
    (∀ doc claim : Table,
      ((reconcileMonth (some doc) (some claim)).status = ReconStatus.consistent ↔
        (grandTotal (_group_sum doc (sl "청구차수")).1 =
           grandTotal (_group_sum claim (sl "보험유형")).1 ∧
         grandTotal (_group_sum doc (sl "청구차수")).1 =
           grandTotal (_group_sum claim (sl "입원/외래")).1)) ∧
      ((reconcileMonth (some doc) (some claim)).status = ReconStatus.inconsistent ↔
        ¬ (grandTotal (_group_sum doc (sl "청구차수")).1 =
             grandTotal (_group_sum claim (sl "보험유형")).1 ∧
           grandTotal (_group_sum doc (sl "청구차수")).1 =
             grandTotal (_group_sum claim (sl "입원/외래")).1)) ∧
      (reconcileMonth (some doc) (some claim)).gap =
        max (max (grandTotal (_group_sum doc (sl "청구차수")).1)
              (grandTotal (_group_sum claim (sl "보험유형")).1))
            (grandTotal (_group_sum claim (sl "입원/외래")).1) -
        min (min (grandTotal (_group_sum doc (sl "청구차수")).1)
              (grandTotal (_group_sum claim (sl "보험유형")).1))
            (grandTotal (_group_sum claim (sl "입원/외래")).1)) ∧
    reconcileTotals [2200000, 2200000, 2100000] =
      ⟨ReconStatus.inconsistent, 100000⟩ := by
  constructor
  · intro doc claim
    set a := grandTotal (_group_sum doc (sl "청구차수")).1 with ha
    set b := grandTotal (_group_sum claim (sl "보험유형")).1 with hb
    set c := grandTotal (_group_sum claim (sl "입원/외래")).1 with hc
    have hred : reconcileMonth (some doc) (some claim) =
        ⟨if max (max a b) c - min (min a b) c = 0 then ReconStatus.consistent
          else ReconStatus.inconsistent,
         max (max a b) c - min (min a b) c⟩ := rfl
    rw [hred]
    by_cases h0 : max (max a b) c - min (min a b) c = 0
    · have hconj := (max_min_eq_iff a b c).mp h0
      rw [if_pos h0]
      exact ⟨iff_of_true rfl hconj, iff_of_false (by simp) (not_not_intro hconj), rfl⟩
    · have hconj : ¬ (a = b ∧ a = c) := fun hc' => h0 ((max_min_eq_iff a b c).mpr hc')
      rw [if_neg h0]
      exact ⟨iff_of_false (by simp) hconj, iff_of_true rfl hconj, rfl⟩
  · show reconcileTotals [2200000, 2200000, 2100000] = _
    unfold reconcileTotals
    simp only [List.foldl_cons, List.foldl_nil]
    norm_num [max_def, min_def]

/-! ### Upload batch and blob integrity (claim C9) -/

abbrev Blob := List Nat

/-- Modelled from the spec: the archive-format signature of the xlsx
container (the zip local-file-header magic) that a blob's first bytes
must match. -/
def XLSX_SIGNATURE : Blob := [0x50, 0x4B, 0x03, 0x04]

/-- Modelled from the spec: the minimal byte threshold below which a
blob is rejected as truncated before signature inspection. -/
def MIN_XLSX_BYTES : Nat := 4

def truncatedMsg (name : Str) : Str := sl "truncated file: " ++ name

def badFormatMsg (name : Str) : Str := sl "bad container signature: " ++ name

/-- Modelled from the spec: `_read_xlsx_uploaded` — the integrity check
(threshold, then container signature) happens inside
`pd.read_excel`/openpyxl, not in src/main.py; `decode` abstracts the
workbook parser applied to a valid blob. -/
def _read_xlsx_uploaded (decode : Blob → Table) (name : Str) (blob : Blob) :
    Except Str Table :=
  if blob.length < MIN_XLSX_BYTES then Except.error (truncatedMsg name)
  else if blob.take 4 ≠ XLSX_SIGNATURE then Except.error (badFormatMsg name)
  else Except.ok (decode blob)

structure UploadFile where
  name : Str
  blob : Blob

abbrev Buckets := List ((Kind × Nat) × List Table)

/-- `buckets.setdefault(kind, {}).setdefault(month, []).append(df)`. -/
def bucketAdd (b : Buckets) (k : Kind × Nat) (t : Table) : Buckets :=
  match b with
  | [] => [(k, [t])]
  | e :: rest => if e.1 = k then (k, e.2 ++ [t]) :: rest else e :: bucketAdd rest k t

/-- The per-file body of the upload loop from the source: classify the
filename (skipping unrecognized files), then read and prepare inside
`try`/`except` — a failed read logs an error naming the file and leaves
every bucket unchanged. -/
def processFile (decode : Blob → Table) (acc : Buckets × List Str) (f : UploadFile) :
    Buckets × List Str :=
  match classify f.name with
  | none => (acc.1, acc.2 ++ [sl "무시됨(종류/월 판단 불가): " ++ f.name])
  | some km =>
    match _read_xlsx_uploaded decode f.name f.blob with
    | Except.error e =>
      (acc.1, acc.2 ++ [sl "[오류] 파일 읽기 실패: " ++ f.name ++ sl " → " ++ e])
    | Except.ok raw =>
      (bucketAdd acc.1 km (_prepare_df raw), acc.2 ++ [sl "인식됨: " ++ f.name])

/-- The whole upload loop over a batch. -/
def processBatch (decode : Blob → Table) (files : List UploadFile) : Buckets × List Str :=
  files.foldl (processFile decode) ([], [])

lemma processFile_fst_log (decode : Blob → Table) (b : Buckets) (l1 l2 : List Str)
    (f : UploadFile) :
    (processFile decode (b, l1) f).1 = (processFile decode (b, l2) f).1 := by
  unfold processFile
  cases classify f.name with
  | none => rfl
  | some km => cases _read_xlsx_uploaded decode f.name f.blob <;> rfl

lemma foldl_fst_log (decode : Blob → Table) : ∀ (files : List UploadFile)
    (b : Buckets) (l1 l2 : List Str),
    (files.foldl (processFile decode) (b, l1)).1 =
      (files.foldl (processFile decode) (b, l2)).1 := by
  intro files
  induction files with
  | nil => intro b l1 l2; rfl
  | cons f rest ih =>
    intro b l1 l2
    simp only [List.foldl_cons]
    have h1 : processFile decode (b, l1) f =
        ((processFile decode (b, l1) f).1, (processFile decode (b, l1) f).2) := rfl
    have h2 : processFile decode (b, l2) f =
        ((processFile decode (b, l2) f).1, (processFile decode (b, l2) f).2) := rfl
    rw [h1, h2, processFile_fst_log decode b l1 l2 f]
    exact ih _ _ _

lemma foldl_log_mono (decode : Blob → Table) : ∀ (files : List UploadFile)
    (b : Buckets) (l : List Str) (x : Str), x ∈ l →
    x ∈ (files.foldl (processFile decode) (b, l)).2 := by
  intro files
  induction files with
  | nil => intro b l x hx; exact hx
  | cons f rest ih =>
    intro b l x hx
    simp only [List.foldl_cons]
    have h1 : processFile decode (b, l) f =
        ((processFile decode (b, l) f).1, (processFile decode (b, l) f).2) := rfl
    rw [h1]
    apply ih
    unfold processFile
    cases classify f.name with
    | none => exact List.mem_append_left _ hx
    | some km =>
      cases _read_xlsx_uploaded decode f.name f.blob <;>
        exact List.mem_append_left _ hx

lemma read_bad_error (decode : Blob → Table) (name : Str) (blob : Blob)
    (hbad : blob.length < MIN_XLSX_BYTES ∨ blob.take 4 ≠ XLSX_SIGNATURE) :
    ∃ e, _read_xlsx_uploaded decode name blob = Except.error e := by
  unfold _read_xlsx_uploaded
  by_cases h1 : blob.length < MIN_XLSX_BYTES
  · exact ⟨truncatedMsg name, by rw [if_pos h1]⟩
  · have h2 : blob.take 4 ≠ XLSX_SIGNATURE := by
      rcases hbad with h | h
      · exact absurd h h1
      · exact h
    exact ⟨badFormatMsg name, by rw [if_neg h1, if_pos h2]⟩

/-- **C9.** A blob shorter than the minimal byte threshold, or whose
first bytes do not match the container signature, is rejected: the read
fails with an error, the batch's buckets are exactly those of the batch
without that file (it contributes no data, and every sibling file is
still processed), and — when the filename was classified — an error log
line naming the file is emitted. -/
theorem C9_bad_blob_isolated (decode : Blob → Table) (pre post : List UploadFile)
    (f : UploadFile)
    (hbad : f.blob.length < MIN_XLSX_BYTES ∨ f.blob.take 4 ≠ XLSX_SIGNATURE) :
    (processBatch decode (pre ++ f :: post)).1 = (processBatch decode (pre ++ post)).1 ∧
    (classify f.name ≠ none →
      ∃ e, _read_xlsx_uploaded decode f.name f.blob = Except.error e ∧
        (sl "[오류] 파일 읽기 실패: " ++ f.name ++ sl " → " ++ e) ∈
          (processBatch decode (pre ++ f :: post)).2) := by
  obtain ⟨e0, he0⟩ := read_bad_error decode f.name f.blob hbad
  constructor
  · unfold processBatch
    rw [List.foldl_append, List.foldl_append, List.foldl_cons]
    set acc := pre.foldl (processFile decode) ([], []) with hacc
    have hstep : (processFile decode acc f).1 = acc.1 := by
      unfold processFile
      cases hc : classify f.name with
      | none => rfl
      | some km => rw [he0]
    have h1 : processFile decode acc f =
        ((processFile decode acc f).1, (processFile decode acc f).2) := rfl
    have h2 : acc = (acc.1, acc.2) := rfl
    rw [h1, hstep]
    conv_rhs => rw [h2]
    exact foldl_fst_log decode post acc.1 _ _
  · intro hcl
    unfold processBatch
    rw [List.foldl_append, List.foldl_cons]
    set acc := pre.foldl (processFile decode) ([], []) with hacc
    refine ⟨e0, he0, ?_⟩
    have hstep : processFile decode acc f =
        (acc.1, acc.2 ++ [sl "[오류] 파일 읽기 실패: " ++ f.name ++ sl " → " ++ e0]) := by
      unfold processFile
      cases hc : classify f.name with
      | none => exact absurd hc hcl
      | some km => rw [he0]
    rw [hstep]
    apply foldl_log_mono
    exact List.mem_append_right _ (List.mem_singleton.mpr rfl)

/-- Witness for C9: the theorem applied to a concrete batch — one
correctly named file whose two-byte blob fails the threshold check,
followed by a sibling file with a valid signature. -/
theorem C9_bad_blob_isolated_witness :
    ((⟨sl "청구_9월", [80, 75]⟩ : UploadFile).blob.length < MIN_XLSX_BYTES ∨
      (⟨sl "청구_9월", [80, 75]⟩ : UploadFile).blob.take 4 ≠ XLSX_SIGNATURE) ∧
    ((processBatch (fun _ => ⟨[]⟩)
        ([] ++ (⟨sl "청구_9월", [80, 75]⟩ : UploadFile) ::
          [⟨sl "의사별_8월", [80, 75, 3, 4, 0]⟩])).1 =
      (processBatch (fun _ => ⟨[]⟩) ([] ++ [⟨sl "의사별_8월", [80, 75, 3, 4, 0]⟩])).1 ∧
     (classify (sl "청구_9월") ≠ none →
       ∃ e, _read_xlsx_uploaded (fun _ => ⟨[]⟩) (sl "청구_9월") [80, 75] =
           Except.error e ∧
         (sl "[오류] 파일 읽기 실패: " ++ sl "청구_9월" ++ sl " → " ++ e) ∈
           (processBatch (fun _ => ⟨[]⟩)
             ([] ++ (⟨sl "청구_9월", [80, 75]⟩ : UploadFile) ::
               [⟨sl "의사별_8월", [80, 75, 3, 4, 0]⟩])).2)) :=
  ⟨Or.inl (by decide),
    C9_bad_blob_isolated (fun _ => ⟨[]⟩) [] [⟨sl "의사별_8월", [80, 75, 3, 4, 0]⟩]
      ⟨sl "청구_9월", [80, 75]⟩ (Or.inl (by decide))⟩

/-! ### Frame effects: the pipeline copies, never mutates (claim C10)

The source's `df.copy()` discipline is made explicit by a heap of
DataFrames: allocation models `copy` (and `rename`, which returns a new
frame), `writeRef` models in-place column assignment (`df[c] = ...`).
Each pipeline function mutates only freshly allocated frames. -/

abbrev Heap := List Table

def readRef (h : Heap) (r : Nat) : Table := h.getD r ⟨[]⟩

/-- `df.copy()` (or any constructor of a fresh frame). -/
def allocRef (h : Heap) (t : Table) : Heap × Nat := (h ++ [t], h.length)

/-- In-place mutation of the frame at `r`. -/
def writeRef (h : Heap) (r : Nat) (t : Table) : Heap := h.set r t

/-- `normalize_columns` at the heap level: `df = df.copy()`, then the
in-place header strip `df.columns = cols_stripped` on the copy, then
`df.rename(...)` which allocates the renamed frame. -/
def normalize_columns_ref (h : Heap) (r : Nat) : Heap × Nat :=
  let a := allocRef h (readRef h r)
  let h2 := writeRef a.1 a.2 (stripTable (readRef a.1 a.2))
  allocRef h2 (renameTable (readRef h2 a.2)
    (buildRenames RENAME_CANDIDATES (colNames (readRef h2 a.2))))

/-- `_prepare_df` at the heap level: the frame produced by
`normalize_columns` is then mutated in place, column by column
(`df[c] = 0`, `df[c] = _coerce_numeric(df[c])`, the aggregate
assignment); the caller's frame is never written. -/
def prepare_df_ref (h : Heap) (r : Nat) : Heap × Nat :=
  let a := normalize_columns_ref h r
  let h2 := (SUM_COLS.filter (fun c => decide (c ∉ colNames (readRef a.1 a.2)))).foldl
    (fun h c => writeRef h a.2 (setCol (readRef h a.2) c
      (List.replicate (nRows (readRef h a.2)) (Cell.num 0)))) a.1
  let h3 := SUM_COLS.foldl
    (fun h c => writeRef h a.2 (setCol (readRef h a.2) c
      (((lookupCol (readRef h a.2) c).getD []).map (fun cell => Cell.num (cellToRat cell)))))
    h2
  (writeRef h3 a.2 (setCol (readRef h3 a.2) AGG ((aggColumn (readRef h3 a.2)).map Cell.num)),
   a.2)

/-- `_group_sum` at the heap level: when the grouping column is absent,
`work = df.copy()` is allocated and the sentinel column is written only
to that copy; when it is present nothing is written at all.  The
grouped result is the pure `_group_sum` of the argument frame. -/
def group_sum_ref (h : Heap) (r : Nat) (by_col : Str) : Heap × (GroupedTotal × Bool) :=
  if by_col ∈ colNames (readRef h r) then (h, _group_sum (readRef h r) by_col)
  else
    let a := allocRef h (readRef h r)
    (writeRef a.1 a.2 (setCol (readRef a.1 a.2) by_col
      (List.replicate (nRows (readRef a.1 a.2)) (Cell.txt sentinel))),
     _group_sum (readRef h r) by_col)

lemma readRef_append (h : Heap) (t : Table) (r : Nat) (hr : r < h.length) :
    readRef (h ++ [t]) r = readRef h r := by
  unfold readRef
  rw [List.getD_eq_getElem?_getD, List.getD_eq_getElem?_getD,
    List.getElem?_append, if_pos hr]

lemma readRef_set_ne (h : Heap) (i : Nat) (t : Table) (r : Nat) (hne : i ≠ r) :
    readRef (writeRef h i t) r = readRef h r := by
  unfold readRef writeRef
  rw [List.getD_eq_getElem?_getD, List.getD_eq_getElem?_getD, List.getElem?_set_ne hne]

lemma writeRef_length (h : Heap) (i : Nat) (t : Table) :
    (writeRef h i t).length = h.length := by
  simp [writeRef]

lemma foldl_writeRef_frame (r1 r : Nat) (hne : r1 ≠ r) (g : Heap → Str → Table) :
    ∀ (cs : List Str) (h : Heap),
      readRef (cs.foldl (fun h c => writeRef h r1 (g h c)) h) r = readRef h r := by
  intro cs
  induction cs with
  | nil => intro h; rfl
  | cons c rest ih =>
    intro h
    simp only [List.foldl_cons]
    rw [ih, readRef_set_ne _ _ _ _ hne]

lemma foldl_writeRef_length (r1 : Nat) (g : Heap → Str → Table) :
    ∀ (cs : List Str) (h : Heap),
      (cs.foldl (fun h c => writeRef h r1 (g h c)) h).length = h.length := by
  intro cs
  induction cs with
  | nil => intro h; rfl
  | cons c rest ih =>
    intro h
    simp only [List.foldl_cons]
    rw [ih, writeRef_length]

lemma normalize_ref_shape (h : Heap) (r : Nat) :
    (normalize_columns_ref h r).2 = h.length + 1 ∧
    (normalize_columns_ref h r).1.length = h.length + 2 := by
  unfold normalize_columns_ref allocRef
  constructor
  · simp [writeRef]
  · simp [writeRef]

lemma readRef_alloc_self (h : Heap) (t : Table) : readRef (h ++ [t]) h.length = t := by
  unfold readRef
  rw [List.getD_eq_getElem?_getD, List.getElem?_append, if_neg (lt_irrefl h.length)]
  simp

lemma readRef_set_self (h : Heap) (i : Nat) (t : Table) (hi : i < h.length) :
    readRef (writeRef h i t) i = t := by
  unfold readRef writeRef
  rw [List.getD_eq_getElem?_getD, List.getElem?_set_eq_of_lt t (by simpa using hi)]
  rfl

lemma foldl_writeRef_read (r1 : Nat) (g : Table → Str → Table) :
    ∀ (cs : List Str) (h : Heap), r1 < h.length →
      (cs.foldl (fun h c => writeRef h r1 (g (readRef h r1) c)) h).length = h.length ∧
      readRef (cs.foldl (fun h c => writeRef h r1 (g (readRef h r1) c)) h) r1 =
        cs.foldl g (readRef h r1) := by
  intro cs
  induction cs with
  | nil => intro h _; exact ⟨rfl, rfl⟩
  | cons c rest ih =>
    intro h hlt
    simp only [List.foldl_cons]
    have hlt' : r1 < (writeRef h r1 (g (readRef h r1) c)).length := by
      rw [writeRef_length]; exact hlt
    obtain ⟨ih1, ih2⟩ := ih (writeRef h r1 (g (readRef h r1) c)) hlt'
    refine ⟨by rw [ih1, writeRef_length], ?_⟩
    rw [ih2, readRef_set_self h r1 _ hlt]

/-- The heap-level `normalize_columns` computes, at its result
reference, exactly the pure `normalize_columns` of the argument frame. -/
lemma normalize_ref_content (h : Heap) (r : Nat) :
    readRef (normalize_columns_ref h r).1 (normalize_columns_ref h r).2 =
      (normalize_columns (readRef h r)).1 := by
  simp only [normalize_columns_ref, allocRef]
  have e1 : readRef (h ++ [readRef h r]) h.length = readRef h r := readRef_alloc_self h _
  rw [e1]
  have e2 : readRef (writeRef (h ++ [readRef h r]) h.length (stripTable (readRef h r)))
      h.length = stripTable (readRef h r) :=
    readRef_set_self _ _ _ (by simp)
  rw [e2, readRef_alloc_self]
  rfl

/-- The heap-level `_prepare_df` computes, at its result reference,
exactly the pure `_prepare_df` of the argument frame. -/
lemma prepare_ref_content (h : Heap) (r : Nat) :
    readRef (prepare_df_ref h r).1 (prepare_df_ref h r).2 =
      _prepare_df (readRef h r) := by
  obtain ⟨hs2, hs1⟩ := normalize_ref_shape h r
  have hlt : (normalize_columns_ref h r).2 < (normalize_columns_ref h r).1.length := by
    omega
  have hc := normalize_ref_content h r
  simp only [prepare_df_ref]
  obtain ⟨hf1, hf2⟩ := foldl_writeRef_read (normalize_columns_ref h r).2
    (fun t c => setCol t c (List.replicate (nRows t) (Cell.num 0)))
    ((SUM_COLS.filter (fun c => decide (c ∉ colNames
      (readRef (normalize_columns_ref h r).1 (normalize_columns_ref h r).2)))))
    (normalize_columns_ref h r).1 hlt
  obtain ⟨hg1, hg2⟩ := foldl_writeRef_read (normalize_columns_ref h r).2
    (fun t c => setCol t c
      (((lookupCol t c).getD []).map (fun cell => Cell.num (cellToRat cell))))
    SUM_COLS _ (by rw [hf1]; exact hlt)
  rw [readRef_set_self _ _ _ (by rw [hg1, hf1]; exact hlt), hg2, hf2, hc]
  rfl

/-- **C10.** Each pipeline operation leaves the caller's table
unchanged: column normalization, row preparation, and grouped
aggregation write only to freshly allocated frames, so the frame the
argument reference denotes is identical before and after the call —
also in the absent-grouping-column case, where the sentinel column is
added only to a copy. -/
theorem C10_pipeline_frames (h : Heap) (r : Nat) (hr : r < h.length) :
    readRef (normalize_columns_ref h r).1 r = readRef h r ∧
    readRef (prepare_df_ref h r).1 r = readRef h r ∧
    (∀ by_col : Str, readRef (group_sum_ref h r by_col).1 r = readRef h r) := by
  have hnorm : readRef (normalize_columns_ref h r).1 r = readRef h r := by
    unfold normalize_columns_ref allocRef
    have h1 : r < (h ++ [readRef h r]).length := by
      simp
      omega
    have h2 : h.length ≠ r := by omega
    rw [readRef_append _ _ _ (by simpa [writeRef] using h1),
      readRef_set_ne _ _ _ _ h2, readRef_append _ _ _ hr]
  refine ⟨hnorm, ?_, ?_⟩
  · obtain ⟨hs2, hs1⟩ := normalize_ref_shape h r
    have hne : (normalize_columns_ref h r).2 ≠ r := by omega
    unfold prepare_df_ref
    rw [readRef_set_ne _ _ _ _ hne, foldl_writeRef_frame _ _ hne,
      foldl_writeRef_frame _ _ hne]
    exact hnorm
  · intro by_col
    unfold group_sum_ref
    by_cases hb : by_col ∈ colNames (readRef h r)
    · rw [if_pos hb]
    · rw [if_neg hb]
      show readRef (writeRef (h ++ [readRef h r]) h.length _) r = readRef h r
      rw [readRef_set_ne _ _ _ _ (by omega), readRef_append _ _ _ hr]

/-- Witness for C10: the theorem applied at a concrete one-frame heap. -/
theorem C10_pipeline_frames_witness :
    0 < [w7t].length ∧
    (readRef (normalize_columns_ref [w7t] 0).1 0 = readRef [w7t] 0 ∧
     readRef (prepare_df_ref [w7t] 0).1 0 = readRef [w7t] 0 ∧
     (∀ by_col : Str, readRef (group_sum_ref [w7t] 0 by_col).1 0 = readRef [w7t] 0)) :=
  ⟨by decide, C10_pipeline_frames [w7t] 0 (by decide)⟩

end Cheongu
